import Mathlib

/-!
Verification of the SmallRender coordination core against its specification.

Each definition below is a shallow embedding of one C++ function or data
structure from the sources under `src/`: filesystem state, queues and maps are
made explicit, fallible operations return `Option`, and machine integers are
modelled as unbounded `Int`/`Nat` (none of the embedded arithmetic is intended
to wrap, and signed overflow is undefined behaviour in the source rather than
wraparound).
-/

namespace SR

-- ═══════════════════════════════ Definitions ═══════════════════════════════

/-- Inclusive frame range (`ChunkRange` in `src/core/job_types.h`). -/
structure ChunkRange where
  frame_start : Int
  frame_end : Int
deriving DecidableEq, Repr

/-- Loop of `computeChunks` in `src/core/job_types.h`: starting at `f`, emit
`[f, min (f + chunk_size - 1) frame_end]` and step `f` by `chunk_size` while
`f ≤ frame_end`.  The `1 ≤ k` conjunct records the caller's guard
(`chunk_size <= 0` already returned) and makes the loop terminating. -/
def computeChunksAux (fe k : Int) (f : Int) : List ChunkRange :=
  if h : f ≤ fe ∧ 1 ≤ k then
    { frame_start := f, frame_end := min (f + k - 1) fe } :: computeChunksAux fe k (f + k)
  else
    []
termination_by (fe + 1 - f).toNat
decreasing_by simp_wf; omega

/-- `computeChunks(frame_start, frame_end, chunk_size)` from
`src/core/job_types.h`. -/
def computeChunks (frame_start frame_end chunk_size : Int) : List ChunkRange :=
  if chunk_size ≤ 0 ∨ frame_start > frame_end then []
  else computeChunksAux frame_end chunk_size frame_start

-- ── Decimal strings, message ids, state-entry filenames ─────────────────────

/-- One decimal digit as a character; callers only apply it to values `< 10`
(the final arm is unreachable there). -/
def digitChar10 (d : Nat) : Char :=
  if d = 0 then '0' else if d = 1 then '1' else if d = 2 then '2'
  else if d = 3 then '3' else if d = 4 then '4' else if d = 5 then '5'
  else if d = 6 then '6' else if d = 7 then '7' else if d = 8 then '8' else '9'

/-- Digit characters of `n`, most significant first, no leading zeros, empty
for 0.  The first argument is fuel bounding the recursion depth (the digit
count of `n` never exceeds `n`). -/
def natCharsAux : Nat → Nat → List Char
  | 0, _ => []
  | _ + 1, 0 => []
  | fuel + 1, n + 1 =>
      natCharsAux fuel ((n + 1) / 10) ++ [digitChar10 ((n + 1) % 10)]

/-- Decimal representation of a natural number: models `std::to_string` on the
(nonnegative) millisecond timestamps the system writes. -/
def natToChars (n : Nat) : List Char :=
  if n = 0 then ['0'] else natCharsAux n n

/-- `std::to_string` as a `String`. -/
def natStr (n : Nat) : String := ⟨natToChars n⟩

/-- ASCII value of a digit character. -/
def charVal (c : Char) : Nat := c.toNat - 48

/-- Numeric value of a most-significant-first digit string. -/
def charsToNat (l : List Char) : Nat :=
  l.foldl (fun acc c => acc * 10 + charVal c) 0

/-- `msg_id = "{timestamp_ms}.{sender_node_id}"` as built by
`CommandManager::sendCommand` (`src/monitor/command_manager.cpp`). -/
def msgId (now : Nat) (nodeId : String) : String := natStr now ++ "." ++ nodeId

/-- The arguments and wall-clock timestamp of one `sendCommand` invocation.
Two invocations are equal only when every component, target and payload
included, coincides. -/
structure SendInvocation where
  ts_ms : Nat
  sender : String
  target : String
  cmdType : String
  jobId : String
  reason : String
  frame_start : Int
  frame_end : Int
deriving DecidableEq, Repr

/-- The `msg_id` a `sendCommand` invocation generates; it depends only on the
timestamp and the sender id. -/
def SendInvocation.msg_id (i : SendInvocation) : String := msgId i.ts_ms i.sender

/-- Filename of the initial state entry written by `JobManager::submitJob`
(`src/monitor/job_manager.cpp`): `{ts_ms}_{submitted_by}.json`. -/
def submitStateFilename (ts : Nat) (submittedBy : String) : String :=
  natStr ts ++ "_" ++ submittedBy ++ ".json"

/-- Filename written by `JobManager::writeStateEntry`:
`{ts_ms}_{node_id}.json`. -/
def writeStateEntryFilename (ts : Nat) (nodeId : String) : String :=
  natStr ts ++ "_" ++ nodeId ++ ".json"

/-- Filename of the terminal "completed" state entry written by
`DispatchManager::checkJobCompletions` (`src/monitor/dispatch_manager.cpp`,
`std::to_string(now) + ".json"`): it carries no node id. -/
def completionStateFilename (ts : Nat) : String := natStr ts ++ ".json"

-- ── Job-manager scan: state-entry selection and snapshot order ──────────────

/-- Byte-wise lexicographic `operator<` of `std::string`, on character lists. -/
def lexLt : List Char → List Char → Bool
  | [], [] => false
  | [], _ :: _ => true
  | _ :: _, [] => false
  | x :: xs, y :: ys => if x < y then true else if y < x then false else lexLt xs ys

/-- A state-entry filename `{ts_ms}_{node_id}.json` as a character list. -/
def stateFilenameChars (ts : Nat) (nodeId : String) : List Char :=
  natToChars ts ++ '_' :: (nodeId.data ++ ".json".data)

/-- The state file `JobManager::scanImpl` (`src/monitor/job_manager.cpp`)
selects: the code sorts the names descending with `std::sort` and reads the
first, i.e. it picks the lexicographically greatest name. -/
def selectStateFile : List (List Char) → Option (List Char)
  | [] => none
  | f :: rest => some (rest.foldl (fun acc x => if lexLt acc x then x else acc) f)

/-- The fields of a scanned job inspected by the snapshot sort in
`JobManager::scanImpl`. -/
structure JobSortKey where
  current_priority : Int
  submitted_at_ms : Int
deriving DecidableEq, Repr

/-- The comparator `scanImpl` passes to `std::sort` — priority descending,
then `submitted_at_ms` ascending — as a total ordering predicate. -/
def jobBefore (a b : JobSortKey) : Bool :=
  if a.current_priority ≠ b.current_priority then
    decide (a.current_priority > b.current_priority)
  else
    decide (a.submitted_at_ms ≤ b.submitted_at_ms)

/-- The sorted job snapshot produced by `scanImpl`. -/
def sortJobs (l : List JobSortKey) : List JobSortKey := l.mergeSort jobBefore

-- ── Heartbeat manager: staleness detection ──────────────────────────────────

/-- Per-peer liveness record, the staleness-relevant fields of `NodeInfo`
(`src/core/heartbeat.h`) together with the last heartbeat data read for the
peer.  Default construction (`m_nodes[peerId]` on first contact) gives
`isDead = true`, `staleCount = 0`, `reclaimEligible = true`. -/
structure PeerInfo where
  seq : Nat
  node_state : String
  isDead : Bool
  staleCount : Nat
  lastSeenSeq : Nat
  reclaimEligible : Bool
deriving DecidableEq, Repr

/-- First discovery of a peer in `HeartbeatManager::scanPeers`
(`src/monitor/heartbeat_manager.cpp`): the map entry is default-constructed
(`isDead = true`, `staleCount = 0`, `reclaimEligible = true`), the heartbeat
fields are copied in, and `lastSeenSeq` is seeded to the heartbeat's `seq`. -/
def discoverPeer (hbSeq : Nat) (st : String) : PeerInfo :=
  { seq := hbSeq, node_state := st, isDead := true, staleCount := 0,
    lastSeenSeq := hbSeq, reclaimEligible := true }

/-- Re-reading an already known peer's heartbeat in `scanPeers`: only the
heartbeat fields are refreshed; the staleness state is untouched. -/
def rescanPeer (info : PeerInfo) (hbSeq : Nat) (st : String) : PeerInfo :=
  { info with seq := hbSeq, node_state := st }

/-- One `HeartbeatManager::detectStaleness` step for a non-local peer
(`src/monitor/heartbeat_manager.cpp`), line for line: the seq comparison, the
`lastSeenSeq` update, the stopped-node reclaim rule, then the
dead-threshold check with its one-scan grace. -/
def detectStalenessStep (deadThresholdScans : Nat) (info : PeerInfo) : PeerInfo :=
  let info1 :=
    if info.seq = info.lastSeenSeq then
      { info with staleCount := info.staleCount + 1 }
    else
      { info with staleCount := 0, isDead := false, reclaimEligible := false }
  let info2 := { info1 with lastSeenSeq := info1.seq }
  let info3 :=
    if info2.isDead = false ∧ info2.node_state = "stopped" then
      { info2 with reclaimEligible := true }
    else info2
  if info3.staleCount ≥ deadThresholdScans then
    if info3.isDead = false then
      { info3 with isDead := true, reclaimEligible := false }
    else
      { info3 with reclaimEligible := true }
  else info3

-- ── Command manager: wire format and inbox polling ──────────────────────────

/-- `CommandManager::Action` (`src/monitor/command_manager.h`) as filled in by
`pollInbox` via `j.value(key, default)` lookups. -/
structure Action where
  type : String
  jobId : String
  reason : String
  frameStart : Int
  frameEnd : Int
  fromNodeId : String
deriving DecidableEq, Repr

/-- The logical content of a command file written by
`CommandManager::sendCommand`: the `frame_start`/`frame_end` keys are present
(`some`) or absent (`none`) as a pair. -/
structure CommandFile where
  version : Nat
  fromNode : String
  timestamp_ms : Nat
  type : String
  job_id : String
  reason : String
  frames : Option (Int × Int)
  msg_id : String
  target : String
deriving DecidableEq, Repr

/-- `CommandManager::sendCommand` (`src/monitor/command_manager.cpp`): the
frame keys are written only when `frameStart != 0 || frameEnd != 0`, and
`msg_id = "{now}.{self}"`. -/
def sendCommandFile (selfNode : String) (now : Nat)
    (target ty jobId reason : String) (frameStart frameEnd : Int) : CommandFile :=
  { version := 1, fromNode := selfNode, timestamp_ms := now, type := ty,
    job_id := jobId, reason := reason,
    frames := if frameStart ≠ 0 ∨ frameEnd ≠ 0 then some (frameStart, frameEnd) else none,
    msg_id := msgId now selfNode, target := target }

/-- The `Action` record `pollInbox` builds from a loaded command file:
every missing key falls back to its default (`0` for the frame keys). -/
def parseCommandAction (c : CommandFile) : Action :=
  { type := c.type, jobId := c.job_id, reason := c.reason,
    frameStart := match c.frames with | some p => p.1 | none => 0,
    frameEnd := match c.frames with | some p => p.2 | none => 0,
    fromNodeId := c.fromNode }

/-- How loading one inbox file can go in `pollInbox`:
`safeReadJson` returns empty (missing/unreadable/JSON parse failure), or the
JSON loads but a `j.value` extraction throws, or extraction succeeds. -/
inductive FileContent where
  | badJson
  | badFields
  | goodFields (a : Action)
deriving DecidableEq, Repr

/-- One file of the inbox directory, together with whether the
`fs::rename` into `processed/` and the fallback `fs::remove` would succeed. -/
structure InboxFile where
  name : String
  content : FileContent
  renameOk : Bool
  removeOk : Bool
deriving DecidableEq, Repr

/-- Where a file ends up after the poll visits it. -/
inductive FileFate where
  | inbox
  | processed
  | deleted
deriving DecidableEq, Repr

/-- Fate of one inbox file under `CommandManager::pollInbox`
(`src/monitor/command_manager.cpp`): a file whose JSON does not load is
skipped (`continue`) and stays in the inbox; a loaded file is renamed into
`processed/`, with deletion as fallback on rename failure; a file whose
field extraction throws is renamed into `processed/` in the catch block
(no deletion fallback there). -/
def pollFileFate (f : InboxFile) : FileFate :=
  match f.content with
  | .badJson => .inbox
  | .goodFields _ =>
      if f.renameOk then .processed else if f.removeOk then .deleted else .inbox
  | .badFields => if f.renameOk then .processed else .inbox

/-- Actions `pollInbox` enqueues for one file: one action per successfully
extracted file whose `type` is non-empty, none otherwise. -/
def pollFileActions (f : InboxFile) : List Action :=
  match f.content with
  | .goodFields a => if a.type ≠ "" then [a] else []
  | _ => []

/-- The whole poll: files are visited in ascending filename order
(`std::sort` on the paths) and their actions enqueued in that order. -/
def pollInboxActions (files : List InboxFile) : List Action :=
  (files.mergeSort fun a b => !lexLt b.name.data a.name.data).foldr
    (fun f acc => pollFileActions f ++ acc) []

-- ── Dispatch manager: chunk tables and assignments ──────────────────────────

/-- `DispatchChunk` from `src/core/job_types.h`. -/
structure DispatchChunk where
  frame_start : Int
  frame_end : Int
  state : String
  assigned_to : String
  assigned_at_ms : Int
  completed_at_ms : Int
  retry_count : Int
deriving DecidableEq, Repr

/-- One entry of the coordinator's in-memory assignments map
(`DispatchManager::Assignment`, `src/monitor/dispatch_manager.h`). -/
structure Assignment where
  jobId : String
  chunk : ChunkRange
  assignedAtMs : Int
deriving DecidableEq, Repr

/-- The dispatch-manager state the claims quantify over: the per-job chunk
tables (`m_dispatchTables`, keyed by job id) and the assignments map
(`m_assignments`, keyed by node id), both as association lists. -/
structure DispatchState where
  tables : List (String × List DispatchChunk)
  assignments : List (String × Assignment)
deriving DecidableEq, Repr

/-- Update the value of the first entry with the given key (`std::map`
in-place mutation of `m_dispatchTables[jobId]`). -/
def updateTable (tables : List (String × List DispatchChunk)) (jobId : String)
    (f : List DispatchChunk → List DispatchChunk) :
    List (String × List DispatchChunk) :=
  match tables with
  | [] => []
  | (j, cs) :: rest =>
      if j = jobId then (j, f cs) :: rest else (j, cs) :: updateTable rest jobId f

/-- `m_assignments.erase(node)`. -/
def eraseAssignment (as : List (String × Assignment)) (node : String) :
    List (String × Assignment) :=
  as.filter fun p => p.1 != node

/-- `m_assignments[node] = a` (insert or overwrite). -/
def insertAssignment (as : List (String × Assignment)) (node : String)
    (a : Assignment) : List (String × Assignment) :=
  (node, a) :: eraseAssignment as node

/-- The source's `for (auto& chunk : chunks) { if (cond) { mutate; break; } }`
pattern: update the first chunk satisfying the predicate, leave the rest. -/
def updateFirstChunkWhere (pred : DispatchChunk → Bool)
    (upd : DispatchChunk → DispatchChunk) :
    List DispatchChunk → List DispatchChunk
  | [] => []
  | c :: rest =>
      if pred c then upd c :: rest else c :: updateFirstChunkWhere pred upd rest

/-- The failure transition shared by `processLocalCompletions`,
`processWorkerReports` and `detectDeadWorkers`
(`src/monitor/dispatch_manager.cpp`): `retry_count++`, then `failed` when
the count reached `max_retries`, else back to `pending`; the assignment
fields are cleared. -/
def failChunk (maxRetries : Int) (c : DispatchChunk) : DispatchChunk :=
  { c with retry_count := c.retry_count + 1,
           state := if c.retry_count + 1 ≥ maxRetries then "failed" else "pending",
           assigned_to := "", assigned_at_ms := 0 }

/-- The completion transition: state `completed`, stamp `completed_at_ms`. -/
def completeChunk (now : Int) (c : DispatchChunk) : DispatchChunk :=
  { c with state := "completed", completed_at_ms := now }

/-- The abandoned transition of `processLocalCompletions`: unconditionally
back to `pending` with the assignment fields cleared.  The same
`state = "pending"; assigned_to.clear(); assigned_at_ms = 0` block appears in
`handleJobStateChange`, `reassignChunk` and `retryFailedChunk`. -/
def abandonChunk (c : DispatchChunk) : DispatchChunk :=
  { c with state := "pending", assigned_to := "", assigned_at_ms := 0 }

/-- The dispatch-manager operations that mutate chunk state.  `maxRetries`
carries the `max_retries` the code reads from the job snapshot at processing
time (default 3 when the job is not found), `now` the wall clock. -/
inductive DispatchOp where
  | workerReport (fromNode ty jobId : String) (frameStart frameEnd : Int)
      (maxRetries now : Int)
  | localCompletion (jobId : String) (chunk : ChunkRange) (st : String)
      (maxRetries now : Int)
  | reclaimAssignment (node : String) (maxRetries now : Int)
  | pauseOrCancelJob (jobId : String)
  | activateJob (jobId : String) (chunks : List ChunkRange)
  | retryFailed (jobId : String) (frameStart frameEnd : Int)
  | manualReassign (jobId : String) (frameStart frameEnd : Int)
  | assignChunk (node jobId : String) (now : Int)
deriving DecidableEq, Repr

/-- A fresh dispatch chunk as materialized by
`DispatchManager::initDispatchTable`. -/
def freshChunk (cr : ChunkRange) : DispatchChunk :=
  { frame_start := cr.frame_start, frame_end := cr.frame_end,
    state := "pending", assigned_to := "", assigned_at_ms := 0,
    completed_at_ms := 0, retry_count := 0 }

/-- One dispatch-manager operation applied to the state, transcribed from
`src/monitor/dispatch_manager.cpp`:
`processWorkerReports` (lines 259-308), `processLocalCompletions` (201-257),
the per-node reclamation body of `detectDeadWorkers` (362-398),
`handleJobStateChange` (114-171), `initDispatchTable` via the
ensure-tables/resume path, `retryFailedChunk` (637-658),
`reassignChunk` (593-635) and the per-worker assignment body of
`assignWork` (508-557). -/
def dispatchStep (selfNode : String) (s : DispatchState) (op : DispatchOp) :
    DispatchState :=
  match op with
  | .workerReport fromNode ty jobId fs fe maxR now =>
      match List.lookup jobId s.tables with
      | none => s
      | some _ =>
          { tables := updateTable s.tables jobId (updateFirstChunkWhere
              (fun c => c.frame_start == fs && c.frame_end == fe)
              (fun c => if ty = "chunk_completed" then completeChunk now c
                        else failChunk maxR c)),
            assignments :=
              match List.lookup fromNode s.assignments with
              | some a => if a.jobId = jobId then eraseAssignment s.assignments fromNode
                          else s.assignments
              | none => s.assignments }
  | .localCompletion jobId ch st maxR now =>
      match List.lookup jobId s.tables with
      | none => s
      | some _ =>
          { tables := updateTable s.tables jobId (updateFirstChunkWhere
              (fun c => c.frame_start == ch.frame_start && c.frame_end == ch.frame_end)
              (fun c => if st = "completed" then completeChunk now c
                        else if st = "failed" then failChunk maxR c
                        else abandonChunk c)),
            assignments :=
              match List.lookup selfNode s.assignments with
              | some a => if a.jobId = jobId then eraseAssignment s.assignments selfNode
                          else s.assignments
              | none => s.assignments }
  | .reclaimAssignment node maxR _now =>
      if node = selfNode then s
      else
        match List.lookup node s.assignments with
        | none => s
        | some a =>
            { tables := updateTable s.tables a.jobId (updateFirstChunkWhere
                (fun c => c.frame_start == a.chunk.frame_start &&
                          c.frame_end == a.chunk.frame_end && c.state == "assigned")
                (failChunk maxR)),
              assignments := eraseAssignment s.assignments node }
  | .pauseOrCancelJob jobId =>
      { tables := updateTable s.tables jobId (List.map fun c =>
          if c.state = "assigned" then abandonChunk c else c),
        assignments := s.assignments.filter fun p => p.2.jobId != jobId }
  | .activateJob jobId chunks =>
      match List.lookup jobId s.tables with
      | some _ => s
      | none => { s with tables := s.tables ++ [(jobId, chunks.map freshChunk)] }
  | .retryFailed jobId fs fe =>
      { s with tables := updateTable s.tables jobId (updateFirstChunkWhere
          (fun c => c.frame_start == fs && c.frame_end == fe && c.state == "failed")
          abandonChunk) }
  | .manualReassign jobId fs fe =>
      match List.lookup jobId s.tables with
      | none => s
      | some cs =>
          match cs.find? (fun c => c.frame_start == fs && c.frame_end == fe &&
              c.state == "assigned") with
          | none => s
          | some c =>
              { tables := updateTable s.tables jobId (updateFirstChunkWhere
                  (fun d => d.frame_start == fs && d.frame_end == fe &&
                            d.state == "assigned")
                  abandonChunk),
                assignments := if c.assigned_to ≠ "" then
                    eraseAssignment s.assignments c.assigned_to
                  else s.assignments }
  | .assignChunk node jobId now =>
      match List.lookup jobId s.tables with
      | none => s
      | some cs =>
          match cs.find? (fun c => c.state == "pending") with
          | none => s
          | some c =>
              { tables := updateTable s.tables jobId (updateFirstChunkWhere
                  (fun c => c.state == "pending")
                  (fun d => { d with state := "assigned",
                                     assigned_to := node,
                                     assigned_at_ms := now })),
                assignments := insertAssignment s.assignments node
                  ⟨jobId, ⟨c.frame_start, c.frame_end⟩, now⟩ }

/-- The chunk at position `i` of job `jobId`'s dispatch table. -/
def chunkAt (s : DispatchState) (jobId : String) (i : Nat) : Option DispatchChunk :=
  (List.lookup jobId s.tables).bind fun cs => cs.get? i

/-- Does the operation carry a completion or failure report (worker report or
local completion) for job `jobId` matching chunk `c`'s frame range?  These
are the only operations able to touch a `completed` chunk. -/
def opTouchesChunk (op : DispatchOp) (jobId : String) (c : DispatchChunk) : Prop :=
  match op with
  | .workerReport _ _ j fs fe _ _ =>
      j = jobId ∧ fs = c.frame_start ∧ fe = c.frame_end
  | .localCompletion j ch _ _ _ =>
      j = jobId ∧ ch.frame_start = c.frame_start ∧ ch.frame_end = c.frame_end
  | _ => False

/-- The operations able to move a `failed` chunk back to `pending`: the
manual retry, an abandoned (or under-max-retries failed) local completion
matching its range, or an under-max-retries failure report matching its
range.  When the per-job `max_retries` is constant — manifests are
immutable — the under-max-retries cases cannot arise, because a chunk is
only marked `failed` once `retry_count ≥ max_retries` and `retry_count`
never decreases. -/
def opRevivesFailed (op : DispatchOp) (jobId : String) (c : DispatchChunk) : Prop :=
  match op with
  | .retryFailed j fs fe => j = jobId ∧ fs = c.frame_start ∧ fe = c.frame_end
  | .localCompletion j ch st maxR _ =>
      j = jobId ∧ ch.frame_start = c.frame_start ∧ ch.frame_end = c.frame_end ∧
      st ≠ "completed" ∧ (st = "failed" → c.retry_count + 1 < maxR)
  | .workerReport _ ty j fs fe maxR _ =>
      j = jobId ∧ fs = c.frame_start ∧ fe = c.frame_end ∧
      ty ≠ "chunk_completed" ∧ c.retry_count + 1 < maxR
  | _ => False

-- ── Atomic file I/O: JSON values, serialization, parsing ────────────────────

/-- JSON values as the `nlohmann::json` data this system stores: null,
booleans, (integer) numbers, strings, arrays and objects.  Every number the
system writes is an integer (timestamps, frame numbers, priorities,
versions), so numbers are modelled as `Int`. -/
inductive JVal where
  | jnull
  | jbool (b : Bool)
  | jnum (n : Int)
  | jstr (s : List Char)
  | jarr (elems : List JVal)
  | jobj (fields : List (List Char × JVal))

/-- The two brace characters, by code point. -/
def openBraceChar : Char := Char.ofNat 123

def closeBraceChar : Char := Char.ofNat 125

/-- JSON string escaping for the quote and backslash characters. -/
def escapeChars : List Char → List Char
  | [] => []
  | c :: rest =>
      if c = '"' ∨ c = '\\' then '\\' :: c :: escapeChars rest
      else c :: escapeChars rest

/-- Decimal serialization of an integer. -/
def intChars (n : Int) : List Char :=
  if n < 0 then '-' :: natToChars n.natAbs else natToChars n.toNat

mutual

/-- Canonical serialization of a JSON value, the text
`AtomicFileIO::writeJson` publishes at the target path.  The source calls
`data.dump(2)`, which additionally pretty-prints with two-space indentation;
whitespace between tokens is exactly what JSON canonicalization erases, so
the model serializes without it. -/
def dumpJ : JVal → List Char
  | .jnull => "null".data
  | .jbool true => "true".data
  | .jbool false => "false".data
  | .jnum n => intChars n
  | .jstr s => '"' :: (escapeChars s ++ ['"'])
  | .jarr [] => '[' :: [']']
  | .jarr (e :: es) => '[' :: (dumpJ e ++ (dumpElems es ++ [']']))
  | .jobj [] => openBraceChar :: [closeBraceChar]
  | .jobj (f :: fs) => openBraceChar :: (dumpField f ++ (dumpFields fs ++ [closeBraceChar]))

/-- Serialization of the second and later array elements. -/
def dumpElems : List JVal → List Char
  | [] => []
  | e :: es => ',' :: (dumpJ e ++ dumpElems es)

/-- Serialization of one object field. -/
def dumpField : List Char × JVal → List Char
  | (k, v) => '"' :: (escapeChars k ++ ('"' :: ':' :: dumpJ v))

/-- Serialization of the second and later object fields. -/
def dumpFields : List (List Char × JVal) → List Char
  | [] => []
  | f :: fs => ',' :: (dumpField f ++ dumpFields fs)

end

/-- Expect a fixed literal prefix, returning the remainder. -/
def expectChars : List Char → List Char → Option (List Char)
  | [], input => some input
  | _ :: _, [] => none
  | c :: rest, x :: xs => if x = c then expectChars rest xs else none

/-- Parse a JSON string body up to its closing quote, undoing
`escapeChars`; invalid escapes fail.  Fuel-driven so the recursion is
structural. -/
def parseStringBody : Nat → List Char → Option (List Char × List Char)
  | 0, _ => none
  | _ + 1, [] => none
  | fuel + 1, c :: rest =>
      if c = '"' then some ([], rest)
      else if c = '\\' then
        match rest with
        | [] => none
        | e :: rest' =>
            if e = '"' ∨ e = '\\' then
              match parseStringBody fuel rest' with
              | some (s, rem) => some (e :: s, rem)
              | none => none
            else none
      else
        match parseStringBody fuel rest with
        | some (s, rem) => some (c :: s, rem)
        | none => none

/-- Parse a nonempty run of decimal digits to its value. -/
def parseDigits (input : List Char) : Option (Nat × List Char) :=
  let ds := input.takeWhile Char.isDigit
  if ds = [] then none else some (charsToNat ds, input.dropWhile Char.isDigit)

/-- Parse an (integer) JSON number. -/
def parseNumber (input : List Char) : Option (JVal × List Char) :=
  match input with
  | [] => none
  | c :: rest =>
      if c = '-' then
        match parseDigits rest with
        | some p => some (.jnum (-(p.1 : Int)), p.2)
        | none => none
      else
        match parseDigits (c :: rest) with
        | some p => some (.jnum (p.1 : Int), p.2)
        | none => none

mutual

/-- Parse one JSON value, the model of `nlohmann::json::parse` on the
grammar `dumpJ` emits; any non-conforming input yields `none`.  The fuel
argument only bounds the recursion depth. -/
def parseJ : Nat → List Char → Option (JVal × List Char)
  | 0, _ => none
  | _ + 1, [] => none
  | fuel + 1, c :: rest =>
      if c = 'n' then
        match expectChars "ull".data rest with
        | some rem => some (.jnull, rem)
        | none => none
      else if c = 't' then
        match expectChars "rue".data rest with
        | some rem => some (.jbool true, rem)
        | none => none
      else if c = 'f' then
        match expectChars "alse".data rest with
        | some rem => some (.jbool false, rem)
        | none => none
      else if c = '"' then
        match parseStringBody fuel rest with
        | some p => some (.jstr p.1, p.2)
        | none => none
      else if c = '[' then
        match rest with
        | [] => none
        | x :: xs =>
            if x = ']' then some (.jarr [], xs)
            else
              match parseJ fuel rest with
              | some (v, rem) =>
                  match parseElemsTail fuel rem with
                  | some (es, rem') => some (.jarr (v :: es), rem')
                  | none => none
              | none => none
      else if c = openBraceChar then
        match rest with
        | [] => none
        | x :: xs =>
            if x = closeBraceChar then some (.jobj [], xs)
            else
              match parseField fuel rest with
              | some (f, rem) =>
                  match parseFieldsTail fuel rem with
                  | some (fs, rem') => some (.jobj (f :: fs), rem')
                  | none => none
              | none => none
      else if c = '-' ∨ c.isDigit then parseNumber (c :: rest)
      else none

/-- Parse `("," value)* "]"` after the first array element. -/
def parseElemsTail : Nat → List Char → Option (List JVal × List Char)
  | 0, _ => none
  | _ + 1, [] => none
  | fuel + 1, c :: rest =>
      if c = ']' then some ([], rest)
      else if c = ',' then
        match parseJ fuel rest with
        | some (v, rem) =>
            match parseElemsTail fuel rem with
            | some (es, rem') => some (v :: es, rem')
            | none => none
        | none => none
      else none

/-- Parse one `"key":value` object field. -/
def parseField : Nat → List Char → Option ((List Char × JVal) × List Char)
  | 0, _ => none
  | _ + 1, [] => none
  | fuel + 1, c :: rest =>
      if c = '"' then
        match parseStringBody fuel rest with
        | some p =>
            match p.2 with
            | c2 :: rem2 =>
                if c2 = ':' then
                  match parseJ fuel rem2 with
                  | some (v, rem') => some ((p.1, v), rem')
                  | none => none
                else none
            | [] => none
        | none => none
      else none

/-- Parse `("," field)* "}"` after the first object field. -/
def parseFieldsTail : Nat → List Char → Option (List (List Char × JVal) × List Char)
  | 0, _ => none
  | _ + 1, [] => none
  | fuel + 1, c :: rest =>
      if c = closeBraceChar then some ([], rest)
      else if c = ',' then
        match parseField fuel rest with
        | some (f, rem) =>
            match parseFieldsTail fuel rem with
            | some (fs, rem') => some (f :: fs, rem')
            | none => none
        | none => none
      else none

end

/-- Parse a whole document: one value consuming the entire input, as
`nlohmann::json::parse(stream)` demands.  The fuel `length + 1` suffices for
any input because every recursion level consumes input. -/
def parseJson (content : List Char) : Option JVal :=
  match parseJ (content.length + 1) content with
  | some (v, []) => some v
  | _ => none

/-- A trailing context that cannot extend a decimal literal: its first
character, if any, is not a digit.  Holds for every separator the grammar
emits after a value and for the end of input. -/
def sepAfterOk (rest : List Char) : Prop :=
  ∀ c, rest.head? = some c → c.isDigit = false

/-- One file of the shared filesystem: whether opening it for read would
succeed, and its bytes. -/
structure FSFile where
  readable : Bool
  content : List Char
deriving DecidableEq, Repr

/-- Replace (or create) the file at a path — the effect of the
write-temp/flush/rename sequence once the rename lands. -/
def setFile (fs : List (String × FSFile)) (p : String) (f : FSFile) :
    List (String × FSFile) :=
  (p, f) :: fs.filter fun q => q.1 != p

/-- `AtomicFileIO::writeJson` (`src/core/atomic_file_io.cpp`): on success
(`ok = true`, the function returned `true`) the serialized value is
atomically published at `path`; on any failure the temp file is removed and
the visible filesystem is unchanged. -/
def writeJson (fs : List (String × FSFile)) (p : String) (v : JVal) (ok : Bool) :
    List (String × FSFile) :=
  if ok then setFile fs p ⟨true, dumpJ v⟩ else fs

/-- `AtomicFileIO::safeReadJson`: `none` for a missing file, `none` for an
unreadable file, `none` on a parse failure, the parsed value otherwise —
every failure is caught and surfaced as the empty optional. -/
def safeReadJson (fs : List (String × FSFile)) (p : String) : Option JVal :=
  match List.lookup p fs with
  | none => none
  | some f => if f.readable then parseJson f.content else none

-- ═══════════════════════════════ Theorems ══════════════════════════════════

theorem computeChunksAux_bounds (fe k f : Int) (c : ChunkRange)
    (hc : c ∈ computeChunksAux fe k f) :
    f ≤ c.frame_start ∧ c.frame_start ≤ c.frame_end ∧ c.frame_end ≤ fe ∧
      c.frame_end = min (c.frame_start + k - 1) fe := by
  rw [computeChunksAux] at hc
  split at hc
  · rename_i h
    rcases List.mem_cons.mp hc with rfl | hmem
    · refine ⟨le_refl _, ?_, ?_, rfl⟩ <;> simp <;> omega
    · have ih := computeChunksAux_bounds fe k (f + k) c hmem
      exact ⟨by omega, ih.2.1, ih.2.2.1, ih.2.2.2⟩
  · simp at hc
termination_by (fe + 1 - f).toNat
decreasing_by simp_wf; omega

theorem computeChunksAux_start_step (fe k f : Int) (c : ChunkRange)
    (hc : c ∈ computeChunksAux fe k f) :
    ∃ i : Nat, c.frame_start = f + i * k := by
  rw [computeChunksAux] at hc
  split at hc
  · rcases List.mem_cons.mp hc with rfl | hmem
    · exact ⟨0, by simp⟩
    · obtain ⟨i, hi⟩ := computeChunksAux_start_step fe k (f + k) c hmem
      exact ⟨i + 1, by push_cast [hi]; ring⟩
  · simp at hc
termination_by (fe + 1 - f).toNat
decreasing_by simp_wf; omega

theorem computeChunksAux_coverage (fe k f x : Int) (hk : 1 ≤ k) (hf : f ≤ x)
    (hx : x ≤ fe) :
    ∃ c ∈ computeChunksAux fe k f, c.frame_start ≤ x ∧ x ≤ c.frame_end := by
  rw [computeChunksAux]
  rw [dif_pos ⟨le_trans hf hx, hk⟩]
  by_cases hcase : x ≤ min (f + k - 1) fe
  · exact ⟨_, List.mem_cons_self _ _, hf, hcase⟩
  · obtain ⟨c, hc, h1, h2⟩ := computeChunksAux_coverage fe k (f + k) x hk (by omega) hx
    exact ⟨c, List.mem_cons_of_mem _ hc, h1, h2⟩
termination_by (fe + 1 - f).toNat
decreasing_by simp_wf; omega

theorem computeChunksAux_pairwise (fe k f : Int) :
    List.Pairwise (fun a b => a.frame_end < b.frame_start) (computeChunksAux fe k f) := by
  rw [computeChunksAux]
  split
  · rename_i h
    refine List.Pairwise.cons ?_ (computeChunksAux_pairwise fe k (f + k))
    intro b hb
    have hb' := computeChunksAux_bounds fe k (f + k) b hb
    simp only []
    omega
  · exact List.Pairwise.nil
termination_by (fe + 1 - f).toNat
decreasing_by simp_wf; omega

/-- C1: for `chunk_size ≥ 1`, `computeChunks` returns the ranges
`[start, min (start + chunk_size - 1) frame_end]` with starts stepping by
`chunk_size`, and when `frame_start ≤ frame_end` these ranges partition
`[frame_start, frame_end]` exactly (full coverage, pairwise disjoint); when
`frame_start > frame_end` the result is empty; and the three boundary
examples of the specification evaluate as stated. -/
theorem computeChunks_partitions_frame_range (fs fe k : Int) (hk : 1 ≤ k) :
    (∀ c ∈ computeChunks fs fe k,
        (∃ i : Nat, c.frame_start = fs + i * k) ∧
        c.frame_end = min (c.frame_start + k - 1) fe) ∧
    (fs ≤ fe →
      ∀ x : Int, (fs ≤ x ∧ x ≤ fe) ↔
        ∃ c ∈ computeChunks fs fe k, c.frame_start ≤ x ∧ x ≤ c.frame_end) ∧
    List.Pairwise (fun a b => a.frame_end < b.frame_start) (computeChunks fs fe k) ∧
    (fs > fe → computeChunks fs fe k = []) ∧
    computeChunks 1 0 k = [] ∧
    computeChunks 1 1 5 = [⟨1, 1⟩] ∧
    computeChunks 1 10 3 = [⟨1, 3⟩, ⟨4, 6⟩, ⟨7, 9⟩, ⟨10, 10⟩] := by
  have hnk : ¬ (k ≤ 0) := by omega
  refine ⟨?_, ?_, ?_, ?_, ?_, ?_, ?_⟩
  · intro c hc
    rw [computeChunks] at hc
    split at hc
    · simp at hc
    · exact ⟨computeChunksAux_start_step fe k fs c hc,
        (computeChunksAux_bounds fe k fs c hc).2.2.2⟩
  · intro hle x
    rw [computeChunks, if_neg (by omega)]
    constructor
    · intro ⟨h1, h2⟩
      exact computeChunksAux_coverage fe k fs x hk h1 h2
    · intro ⟨c, hc, h1, h2⟩
      have := computeChunksAux_bounds fe k fs c hc
      omega
  · rw [computeChunks]
    split
    · exact List.Pairwise.nil
    · exact computeChunksAux_pairwise fe k fs
  · intro h
    rw [computeChunks, if_pos (Or.inr h)]
  · rw [computeChunks, if_pos (by omega)]
  · rw [computeChunks, if_neg (by omega)]
    rw [computeChunksAux, dif_pos (by omega)]
    rw [computeChunksAux, dif_neg (by omega)]
    norm_num
  · rw [computeChunks, if_neg (by omega)]
    rw [computeChunksAux, dif_pos (by omega)]
    rw [computeChunksAux, dif_pos (by omega)]
    rw [computeChunksAux, dif_pos (by omega)]
    rw [computeChunksAux, dif_pos (by omega)]
    rw [computeChunksAux, dif_neg (by omega)]
    norm_num

/-- Witness for `computeChunks_partitions_frame_range` at `(1, 10, 3)`:
frame 5 is covered by exactly the chunk `(4, 6)`. -/
theorem computeChunks_partitions_frame_range_witness :
    (1 : Int) ≤ 3 ∧
    computeChunks 1 10 3 = [⟨1, 3⟩, ⟨4, 6⟩, ⟨7, 9⟩, ⟨10, 10⟩] := by
  have h := computeChunks_partitions_frame_range 1 10 3 (by norm_num)
  exact ⟨by norm_num, h.2.2.2.2.2.2⟩

-- ── Decimal strings: basic theory ───────────────────────────────────────────

theorem digitChar10_mem (d : Nat) :
    digitChar10 d ∈ (['0', '1', '2', '3', '4', '5', '6', '7', '8', '9'] : List Char) := by
  unfold digitChar10
  split_ifs <;> decide

theorem charVal_digitChar10 (d : Nat) (hd : d < 10) : charVal (digitChar10 d) = d := by
  interval_cases d <;> decide

theorem natCharsAux_mem (fuel n : Nat) (c : Char) (hc : c ∈ natCharsAux fuel n) :
    ∃ d, d < 10 ∧ c = digitChar10 d := by
  induction fuel generalizing n with
  | zero => simp [natCharsAux] at hc
  | succ fuel ih =>
    match n with
    | 0 => simp [natCharsAux] at hc
    | n + 1 =>
      rw [natCharsAux] at hc
      rcases List.mem_append.mp hc with h | h
      · exact ih _ h
      · exact ⟨(n + 1) % 10, Nat.mod_lt _ (by norm_num), by simpa using h⟩

theorem natToChars_mem (n : Nat) (c : Char) (hc : c ∈ natToChars n) :
    c ∈ (['0', '1', '2', '3', '4', '5', '6', '7', '8', '9'] : List Char) := by
  rw [natToChars] at hc
  split at hc
  · simp at hc; subst hc; decide
  · obtain ⟨d, _, rfl⟩ := natCharsAux_mem n n c hc
    exact digitChar10_mem d

theorem dot_not_mem_natToChars (n : Nat) : '.' ∉ natToChars n := by
  intro h
  have := natToChars_mem n _ h
  simp at this

theorem underscore_not_mem_natToChars (n : Nat) : '_' ∉ natToChars n := by
  intro h
  have := natToChars_mem n _ h
  simp at this

theorem charsToNat_foldl (l : List Char) (acc : Nat) :
    l.foldl (fun a c => a * 10 + charVal c) acc = acc * 10 ^ l.length + charsToNat l := by
  induction l generalizing acc with
  | nil => simp [charsToNat]
  | cons c t ih =>
    rw [charsToNat]
    simp only [List.foldl_cons, List.length_cons]
    rw [ih (acc * 10 + charVal c), ih (0 * 10 + charVal c)]
    ring

theorem charsToNat_natCharsAux (fuel n : Nat) (hn : n ≤ fuel) :
    charsToNat (natCharsAux fuel n) = n := by
  induction fuel generalizing n with
  | zero =>
    have : n = 0 := by omega
    subst this
    simp [natCharsAux, charsToNat]
  | succ fuel ih =>
    match n with
    | 0 => simp [natCharsAux, charsToNat]
    | n + 1 =>
      rw [natCharsAux, charsToNat, List.foldl_append]
      have hq : (n + 1) / 10 ≤ fuel := by
        have := Nat.div_lt_self (Nat.succ_pos n) (by norm_num : 1 < 10)
        omega
      have hih := ih ((n + 1) / 10) hq
      rw [charsToNat] at hih
      simp only [List.foldl_cons, List.foldl_nil]
      rw [hih, charVal_digitChar10 _ (Nat.mod_lt _ (by norm_num))]
      omega

theorem charsToNat_natToChars (n : Nat) : charsToNat (natToChars n) = n := by
  rw [natToChars]
  split
  · subst_vars; decide
  · exact charsToNat_natCharsAux n n le_rfl

theorem natToChars_injective (n1 n2 : Nat) (h : natToChars n1 = natToChars n2) :
    n1 = n2 := by
  have h1 := charsToNat_natToChars n1
  have h2 := charsToNat_natToChars n2
  rw [← h1, ← h2, h]

/-- Splitting two equal concatenations at a separator character absent from
both prefixes. -/
theorem append_sep_inj (sep : Char) (as bs cs ds : List Char)
    (ha : sep ∉ as) (hc : sep ∉ cs)
    (h : as ++ sep :: bs = cs ++ sep :: ds) : as = cs ∧ bs = ds := by
  induction as generalizing cs with
  | nil =>
    cases cs with
    | nil => simpa using h
    | cons c cs' =>
      simp only [List.nil_append, List.cons_append, List.cons.injEq] at h
      exact absurd (h.1 ▸ List.mem_cons_self c cs') hc
  | cons a as' ih =>
    cases cs with
    | nil =>
      simp only [List.cons_append, List.nil_append, List.cons.injEq] at h
      exact absurd (h.1 ▸ List.mem_cons_self a as') ha
    | cons c cs' =>
      simp only [List.cons_append, List.cons.injEq] at h
      obtain ⟨rfl, h2⟩ := h
      have hrec := ih cs' (fun hm => ha (List.mem_cons_of_mem _ hm))
        (fun hm => hc (List.mem_cons_of_mem _ hm)) h2
      exact ⟨by rw [hrec.1], hrec.2⟩

theorem msgId_inj (t1 t2 : Nat) (n1 n2 : String) (h : msgId t1 n1 = msgId t2 n2) :
    t1 = t2 ∧ n1 = n2 := by
  have hdata : natToChars t1 ++ '.' :: n1.data = natToChars t2 ++ '.' :: n2.data := by
    have := congrArg String.data h
    simpa [msgId, natStr, String.data_append] using this
  obtain ⟨h1, h2⟩ := append_sep_inj '.' _ _ _ _
    (dot_not_mem_natToChars t1) (dot_not_mem_natToChars t2) hdata
  exact ⟨natToChars_injective _ _ h1, String.ext h2⟩

-- ── C4: msg_id uniqueness ───────────────────────────────────────────────────

/-- C4 counterexample: two distinct `sendCommand` invocations by the same
sender in the same millisecond (here: aborts to two different targets, as
`handleJobStateChange` issues in one loop) generate the same `msg_id`,
refuting the claim that any two distinct invocations get distinct ids. -/
theorem sendCommand_msgId_collision :
    (⟨1700000000000, "aabbccddeeff", "n1", "abort_chunk", "job-a",
        "job_paused", 1, 3⟩ : SendInvocation) ≠
      ⟨1700000000000, "aabbccddeeff", "n2", "abort_chunk", "job-a",
        "job_paused", 1, 3⟩ ∧
    (⟨1700000000000, "aabbccddeeff", "n1", "abort_chunk", "job-a",
        "job_paused", 1, 3⟩ : SendInvocation).msg_id =
      (⟨1700000000000, "aabbccddeeff", "n2", "abort_chunk", "job-a",
        "job_paused", 1, 3⟩ : SendInvocation).msg_id := by
  exact ⟨by decide, rfl⟩

/-- C4 amended: `msg_id` determines and is determined by the
`(timestamp_ms, sender)` pair, so invocations by different senders, or by one
sender at different millisecond timestamps, never collide; nothing in
`sendCommand` prevents one sender from reusing a timestamp within the same
millisecond (no per-process monotonic counter exists). -/
theorem msgId_injective_in_ts_sender (i1 i2 : SendInvocation)
    (h : i1.ts_ms ≠ i2.ts_ms ∨ i1.sender ≠ i2.sender) :
    i1.msg_id ≠ i2.msg_id := by
  intro hc
  obtain ⟨h1, h2⟩ := msgId_inj _ _ _ _ hc
  rcases h with h | h
  · exact h h1
  · exact h h2

/-- Witness for `msgId_injective_in_ts_sender`: two sends by the same sender
one millisecond apart have different ids. -/
theorem msgId_injective_in_ts_sender_witness :
    ((⟨1700000000000, "aabbccddeeff", "n1", "assign_chunk", "j", "r", 1, 3⟩ :
        SendInvocation).ts_ms ≠
      (⟨1700000000001, "aabbccddeeff", "n1", "assign_chunk", "j", "r", 1, 3⟩ :
        SendInvocation).ts_ms ∨
      (⟨1700000000000, "aabbccddeeff", "n1", "assign_chunk", "j", "r", 1, 3⟩ :
        SendInvocation).sender ≠
      (⟨1700000000001, "aabbccddeeff", "n1", "assign_chunk", "j", "r", 1, 3⟩ :
        SendInvocation).sender) ∧
    (⟨1700000000000, "aabbccddeeff", "n1", "assign_chunk", "j", "r", 1, 3⟩ :
        SendInvocation).msg_id ≠
      (⟨1700000000001, "aabbccddeeff", "n1", "assign_chunk", "j", "r", 1, 3⟩ :
        SendInvocation).msg_id := by
  refine ⟨Or.inl (by decide), msgId_injective_in_ts_sender _ _ (Or.inl (by decide))⟩

-- ── C8: state-entry filenames ───────────────────────────────────────────────

/-- C8 counterexample: the coordinator's terminal "completed" state entry is
written as `{ts}.json` (here `5.json`), which is not of the form
`{ts}_{node_id}.json` for any timestamp and node id — it contains no
underscore. -/
theorem completionStateFilename_lacks_node_id :
    ¬ ∃ (ts : Nat) (node : String),
        completionStateFilename 5 = natStr ts ++ "_" ++ node ++ ".json" := by
  rintro ⟨ts, node, h⟩
  have hmem : '_' ∈ (natStr ts ++ "_" ++ node ++ ".json").data := by
    simp [natStr, String.data_append]
  rw [← h] at hmem
  have : (completionStateFilename 5).data = "5.json".data := by decide
  rw [this] at hmem
  simp at hmem

/-- C8 amended: the submission-time entry and `writeStateEntry` both use
`{ts_ms}_{node_id}.json`, and that shape encodes the `(ts, node)` pair
injectively (concurrent writers can only collide when both timestamp and
node id coincide); the coordinator's terminal entry from
`checkJobCompletions` instead encodes only the timestamp, injectively in
`ts`. -/
theorem stateEntryFilename_encodes_ts_node (t1 t2 : Nat) (n1 n2 : String) :
    submitStateFilename t1 n1 = writeStateEntryFilename t1 n1 ∧
    (writeStateEntryFilename t1 n1 = writeStateEntryFilename t2 n2 →
      t1 = t2 ∧ n1 = n2) ∧
    (completionStateFilename t1 = completionStateFilename t2 → t1 = t2) := by
  refine ⟨rfl, ?_, ?_⟩
  · intro h
    have hdata : natToChars t1 ++ '_' :: (n1.data ++ ".json".data) =
        natToChars t2 ++ '_' :: (n2.data ++ ".json".data) := by
      have := congrArg String.data h
      simpa [writeStateEntryFilename, natStr, String.data_append] using this
    obtain ⟨h1, h2⟩ := append_sep_inj '_' _ _ _ _
      (underscore_not_mem_natToChars t1) (underscore_not_mem_natToChars t2) hdata
    refine ⟨natToChars_injective _ _ h1, String.ext ?_⟩
    exact List.append_cancel_right h2
  · intro h
    have hdata : natToChars t1 ++ ".json".data = natToChars t2 ++ ".json".data := by
      have := congrArg String.data h
      simpa [completionStateFilename, natStr, String.data_append] using this
    exact natToChars_injective _ _ (List.append_cancel_right hdata)

/-- Witness for `stateEntryFilename_encodes_ts_node` at `ts = 7`,
`node = "ab"`. -/
theorem stateEntryFilename_encodes_ts_node_witness :
    submitStateFilename 7 "ab" = writeStateEntryFilename 7 "ab" ∧
    ((7 : Nat) = 7 ∧ ("ab" : String) = "ab") := by
  exact ⟨(stateEntryFilename_encodes_ts_node 7 7 "ab" "ab").1,
    (stateEntryFilename_encodes_ts_node 7 7 "ab" "ab").2.1 rfl⟩

-- ── Lexicographic order: basic theory ───────────────────────────────────────

theorem lexLt_irrefl (l : List Char) : lexLt l l = false := by
  induction l with
  | nil => rfl
  | cons x xs ih => simp [lexLt, ih]

theorem lexLt_trans (a b c : List Char) (h1 : lexLt a b = true)
    (h2 : lexLt b c = true) : lexLt a c = true := by
  induction a generalizing b c with
  | nil =>
    cases c with
    | nil =>
      cases b with
      | nil => exact h1
      | cons y ys => simp [lexLt] at h2
    | cons z zs => simp [lexLt]
  | cons x xs ih =>
    cases b with
    | nil => simp [lexLt] at h1
    | cons y ys =>
      cases c with
      | nil => simp [lexLt] at h2
      | cons z zs =>
        simp only [lexLt] at h1 h2 ⊢
        by_cases hxy : x < y
        · by_cases hyz : y < z
          · rw [if_pos (lt_trans hxy hyz)]
          · rw [if_neg hyz] at h2
            by_cases hzy : z < y
            · rw [if_pos hzy] at h2; exact absurd h2 (by simp)
            · have hyzeq : y = z := le_antisymm (not_lt.mp hzy) (not_lt.mp hyz)
              subst hyzeq
              rw [if_pos hxy]
        · rw [if_neg hxy] at h1
          by_cases hyx : y < x
          · rw [if_pos hyx] at h1; exact absurd h1 (by simp)
          · have hxyeq : x = y := le_antisymm (not_lt.mp hyx) (not_lt.mp hxy)
            subst hxyeq
            by_cases hyz : x < z
            · rw [if_pos hyz]
            · rw [if_neg hyz] at h2 ⊢
              by_cases hzy : z < x
              · rw [if_pos hzy] at h2; exact absurd h2 (by simp)
              · rw [if_neg hzy] at h2 ⊢
                rw [if_neg hyx] at h1
                exact ih ys zs h1 h2

theorem lexLt_asymm (a b : List Char) (h : lexLt a b = true) : lexLt b a = false := by
  by_contra hc
  have hba : lexLt b a = true := by
    cases hv : lexLt b a
    · exact absurd hv hc
    · rfl
  have := lexLt_trans a b a h hba
  rw [lexLt_irrefl] at this
  exact Bool.noConfusion this

theorem lexLt_connex (a b : List Char) (hne : a ≠ b) :
    lexLt a b = true ∨ lexLt b a = true := by
  induction a generalizing b with
  | nil =>
    cases b with
    | nil => exact absurd rfl hne
    | cons y ys => exact Or.inl rfl
  | cons x xs ih =>
    cases b with
    | nil => exact Or.inr rfl
    | cons y ys =>
      rcases lt_trichotomy x y with hxy | hxy | hxy
      · left
        simp only [lexLt]
        rw [if_pos hxy]
      · subst hxy
        have hxs : xs ≠ ys := fun h => hne (by rw [h])
        rcases ih ys hxs with h | h
        · left
          simp only [lexLt]
          rw [if_neg (lt_irrefl x), if_neg (lt_irrefl x)]
          exact h
        · right
          simp only [lexLt]
          rw [if_neg (lt_irrefl x), if_neg (lt_irrefl x)]
          exact h
      · right
        simp only [lexLt]
        rw [if_pos hxy]

theorem not_lexLt_trans (a b c : List Char) (h1 : lexLt a b = false)
    (h2 : lexLt b c = false) : lexLt a c = false := by
  cases hv : lexLt a c
  · rfl
  · exfalso
    by_cases hab : a = b
    · subst hab
      rw [hv] at h2
      exact Bool.noConfusion h2
    · rcases lexLt_connex a b hab with h | h
      · rw [h1] at h
        exact Bool.noConfusion h
      · have := lexLt_trans b a c h hv
        rw [h2] at this
        exact Bool.noConfusion this

theorem foldlMax_mem (rest : List (List Char)) (f : List Char) :
    rest.foldl (fun acc x => if lexLt acc x then x else acc) f ∈ f :: rest := by
  induction rest generalizing f with
  | nil => simp
  | cons x rest ih =>
    simp only [List.foldl_cons]
    have h := ih (if lexLt f x then x else f)
    rcases List.mem_cons.mp h with heq | hm
    · rw [heq]
      split
      · simp
      · simp
    · simp [hm]

theorem foldlMax_ge (rest : List (List Char)) (f y : List Char) (hy : y ∈ f :: rest) :
    lexLt (rest.foldl (fun acc x => if lexLt acc x then x else acc) f) y = false := by
  induction rest generalizing f y with
  | nil =>
    simp at hy
    subst hy
    exact lexLt_irrefl _
  | cons x rest ih =>
    simp only [List.foldl_cons]
    have hgf : lexLt (if lexLt f x then x else f) f = false := by
      by_cases hfx : lexLt f x
      · rw [if_pos hfx]
        exact lexLt_asymm f x hfx
      · rw [if_neg hfx]
        exact lexLt_irrefl f
    have hgx : lexLt (if lexLt f x then x else f) x = false := by
      by_cases hfx : lexLt f x
      · rw [if_pos hfx]
        exact lexLt_irrefl x
      · rw [if_neg hfx]
        exact Bool.eq_false_iff.mpr hfx
    have hself := ih (if lexLt f x then x else f) _ (List.mem_cons_self _ _)
    rcases List.mem_cons.mp hy with rfl | hy'
    · exact not_lexLt_trans _ _ _ hself hgf
    · rcases List.mem_cons.mp hy' with rfl | hy''
      · exact not_lexLt_trans _ _ _ hself hgx
      · exact ih _ _ (List.mem_cons_of_mem _ hy'')

theorem digitList_charVal_lt (c : Char)
    (hc : c ∈ (['0', '1', '2', '3', '4', '5', '6', '7', '8', '9'] : List Char)) :
    charVal c < 10 := by
  fin_cases hc <;> decide

theorem digitList_lt_iff (c1 c2 : Char)
    (h1 : c1 ∈ (['0', '1', '2', '3', '4', '5', '6', '7', '8', '9'] : List Char))
    (h2 : c2 ∈ (['0', '1', '2', '3', '4', '5', '6', '7', '8', '9'] : List Char)) :
    c1 < c2 ↔ charVal c1 < charVal c2 := by
  fin_cases h1 <;> fin_cases h2 <;> decide

theorem digitList_charVal_inj (c1 c2 : Char)
    (h1 : c1 ∈ (['0', '1', '2', '3', '4', '5', '6', '7', '8', '9'] : List Char))
    (h2 : c2 ∈ (['0', '1', '2', '3', '4', '5', '6', '7', '8', '9'] : List Char))
    (h : charVal c1 = charVal c2) : c1 = c2 := by
  fin_cases h1 <;> fin_cases h2 <;> simp_all <;> exact absurd h (by decide)

theorem charsToNat_cons (c : Char) (t : List Char) :
    charsToNat (c :: t) = charVal c * 10 ^ t.length + charsToNat t := by
  rw [charsToNat]
  simp only [List.foldl_cons]
  rw [charsToNat_foldl]
  ring_nf

theorem charsToNat_lt_pow (l : List Char) (h : ∀ c ∈ l, charVal c < 10) :
    charsToNat l < 10 ^ l.length := by
  induction l with
  | nil => simp [charsToNat]
  | cons c t ih =>
    rw [charsToNat_cons]
    have h1 : charVal c < 10 := h c (List.mem_cons_self _ _)
    have h2 : charsToNat t < 10 ^ t.length := ih fun c hc => h c (List.mem_cons_of_mem _ hc)
    have h3 : charVal c * 10 ^ t.length ≤ 9 * 10 ^ t.length :=
      Nat.mul_le_mul_right _ (by omega)
    rw [List.length_cons, pow_succ]
    omega

/-- Same-length most-significant-first digit strings compare
lexicographically exactly as their numeric values, whatever follows them. -/
theorem lexLt_append_digits (d1 : List Char) (d2 r1 r2 : List Char)
    (hlen : d1.length = d2.length)
    (h1 : ∀ c ∈ d1, c ∈ (['0', '1', '2', '3', '4', '5', '6', '7', '8', '9'] : List Char))
    (h2 : ∀ c ∈ d2, c ∈ (['0', '1', '2', '3', '4', '5', '6', '7', '8', '9'] : List Char))
    (hval : charsToNat d1 < charsToNat d2) :
    lexLt (d1 ++ r1) (d2 ++ r2) = true := by
  induction d1 generalizing d2 with
  | nil =>
    cases d2 with
    | nil => simp [charsToNat] at hval
    | cons y ys => simp at hlen
  | cons x xs ih =>
    cases d2 with
    | nil => simp at hlen
    | cons y ys =>
      have hlen' : xs.length = ys.length := by simpa using hlen
      have hx := digitList_charVal_lt x (h1 x (List.mem_cons_self _ _))
      have hy := digitList_charVal_lt y (h2 y (List.mem_cons_self _ _))
      have hxs : ∀ c ∈ xs, c ∈ (['0','1','2','3','4','5','6','7','8','9'] : List Char) :=
        fun c hc => h1 c (List.mem_cons_of_mem _ hc)
      have hys : ∀ c ∈ ys, c ∈ (['0','1','2','3','4','5','6','7','8','9'] : List Char) :=
        fun c hc => h2 c (List.mem_cons_of_mem _ hc)
      have hbx : charsToNat xs < 10 ^ xs.length :=
        charsToNat_lt_pow xs fun c hc => digitList_charVal_lt c (hxs c hc)
      have hby : charsToNat ys < 10 ^ ys.length :=
        charsToNat_lt_pow ys fun c hc => digitList_charVal_lt c (hys c hc)
      rw [charsToNat_cons, charsToNat_cons, hlen'] at hval
      have key : charVal x < charVal y ∨
          (charVal x = charVal y ∧ charsToNat xs < charsToNat ys) := by
        rcases lt_trichotomy (charVal x) (charVal y) with hc | hc | hc
        · exact Or.inl hc
        · right
          refine ⟨hc, ?_⟩
          rw [hc] at hval
          omega
        · exfalso
          have : (charVal y + 1) * 10 ^ ys.length ≤ charVal x * 10 ^ ys.length :=
            Nat.mul_le_mul_right _ (by omega)
          rw [hlen'] at hbx
          nlinarith [hval, hbx, hby]
      rcases key with hc | ⟨hc, htail⟩
      · have hxy : x < y := (digitList_lt_iff x y (h1 x (List.mem_cons_self _ _))
          (h2 y (List.mem_cons_self _ _))).mpr hc
        simp only [List.cons_append, lexLt]
        rw [if_pos hxy]
      · have hxy : x = y := digitList_charVal_inj x y (h1 x (List.mem_cons_self _ _))
          (h2 y (List.mem_cons_self _ _)) hc
        subst hxy
        simp only [List.cons_append, lexLt]
        rw [if_neg (lt_irrefl x), if_neg (lt_irrefl x)]
        exact ih ys hlen' hxs hys htail

-- ── C7: job-manager state selection and snapshot order ──────────────────────

/-- C7 counterexample: with state files for timestamps 999 and 1000 (digit
strings of different lengths), the lexicographically greatest filename is
the one for ts 999, not the one for the greatest `ts_ms` 1000 — the claimed
equivalence of the two selection rules fails. -/
theorem scanImpl_lex_select_not_max_ts :
    selectStateFile [stateFilenameChars 999 "n", stateFilenameChars 1000 "n"] =
      some (stateFilenameChars 999 "n") ∧
    stateFilenameChars 999 "n" ≠ stateFilenameChars 1000 "n" ∧
    (999 : Nat) < 1000 := by
  refine ⟨by decide, by decide, by decide⟩

/-- C7 amended: when all state-entry timestamps have decimal representations
of equal length — true of every timestamp the system itself writes, since
epoch milliseconds have 13 digits until the year 2286 — the lexicographically
greatest filename is the filename of an entry with the greatest `ts_ms`; and
the job snapshot is sorted descending by priority with ties ordered ascending
by `submitted_at_ms`. -/
theorem scanImpl_selects_max_ts_and_sorts
    (entries : List (Nat × String)) (jobs : List JobSortKey)
    (hne : entries ≠ [])
    (hlen : ∀ e1 ∈ entries, ∀ e2 ∈ entries,
      (natToChars e1.1).length = (natToChars e2.1).length) :
    (∃ t n, (t, n) ∈ entries ∧
      selectStateFile (entries.map fun e => stateFilenameChars e.1 e.2) =
        some (stateFilenameChars t n) ∧
      ∀ e ∈ entries, e.1 ≤ t) ∧
    List.Pairwise (fun a b => b.current_priority ≤ a.current_priority ∧
      (a.current_priority = b.current_priority →
        a.submitted_at_ms ≤ b.submitted_at_ms)) (sortJobs jobs) := by
  constructor
  · match entries, hne with
    | e0 :: rest, _ =>
      simp only [List.map_cons, selectStateFile]
      set sel := (List.map (fun e => stateFilenameChars e.1 e.2) rest).foldl
        (fun acc x => if lexLt acc x then x else acc) (stateFilenameChars e0.1 e0.2) with hsel
      have hmem : sel ∈ stateFilenameChars e0.1 e0.2 ::
          List.map (fun e => stateFilenameChars e.1 e.2) rest := foldlMax_mem _ _
      have hmem' : sel ∈ List.map (fun e => stateFilenameChars e.1 e.2) (e0 :: rest) := by
        simpa using hmem
      obtain ⟨e, he, heq⟩ := List.mem_map.mp hmem'
      refine ⟨e.1, e.2, by simpa using he, by rw [heq], ?_⟩
      intro e' he'
      by_contra hgt
      push_neg at hgt
      have hlt : lexLt (stateFilenameChars e.1 e.2) (stateFilenameChars e'.1 e'.2) = true := by
        apply lexLt_append_digits
        · exact hlen e he e' he'
        · exact fun c hc => natToChars_mem _ c hc
        · exact fun c hc => natToChars_mem _ c hc
        · rw [charsToNat_natToChars, charsToNat_natToChars]
          exact hgt
      have hge : lexLt sel (stateFilenameChars e'.1 e'.2) = false := by
        apply foldlMax_ge
        have : stateFilenameChars e'.1 e'.2 ∈
            List.map (fun e => stateFilenameChars e.1 e.2) (e0 :: rest) :=
          List.mem_map.mpr ⟨e', he', rfl⟩
        simpa using this
      rw [heq] at hlt
      rw [hlt] at hge
      exact Bool.noConfusion hge
  · have htrans : ∀ a b c : JobSortKey, jobBefore a b = true → jobBefore b c = true →
        jobBefore a c = true := by
      intro a b c h1 h2
      simp only [jobBefore] at h1 h2 ⊢
      split_ifs at h1 h2 ⊢ <;> simp_all <;> omega
    have htotal : ∀ a b : JobSortKey, (jobBefore a b || jobBefore b a) = true := by
      intro a b
      simp only [jobBefore, Bool.or_eq_true]
      split_ifs <;> simp_all <;> omega
    have h := List.sorted_mergeSort htrans htotal jobs
    refine List.Pairwise.imp ?_ h
    intro a b hab
    simp only [jobBefore] at hab
    split_ifs at hab <;> simp_all <;> omega

/-- Witness for `scanImpl_selects_max_ts_and_sorts` on a one-entry state
directory and a two-job list. -/
theorem scanImpl_selects_max_ts_and_sorts_witness :
    ((([((5 : Nat), "n")] : List (Nat × String)) ≠ []) ∧
      (∀ e1 ∈ ([((5 : Nat), "n")] : List (Nat × String)),
        ∀ e2 ∈ ([((5 : Nat), "n")] : List (Nat × String)),
        (natToChars e1.1).length = (natToChars e2.1).length)) ∧
    ((∃ t n, (t, n) ∈ ([((5 : Nat), "n")] : List (Nat × String)) ∧
      selectStateFile ((([((5 : Nat), "n")] : List (Nat × String))).map
          fun e => stateFilenameChars e.1 e.2) =
        some (stateFilenameChars t n) ∧
      ∀ e ∈ ([((5 : Nat), "n")] : List (Nat × String)), e.1 ≤ t) ∧
    List.Pairwise (fun a b => b.current_priority ≤ a.current_priority ∧
      (a.current_priority = b.current_priority →
        a.submitted_at_ms ≤ b.submitted_at_ms))
      (sortJobs [⟨10, 2⟩, ⟨50, 1⟩])) := by
  refine ⟨⟨by decide, by decide⟩, ?_⟩
  exact scanImpl_selects_max_ts_and_sorts [((5 : Nat), "n")] [⟨10, 2⟩, ⟨50, 1⟩]
    (by decide) (by decide)

-- ── C6: heartbeat staleness detection ───────────────────────────────────────

/-- C6 counterexample, two concrete scan runs with `dead_threshold_scans = 3`.
First: a peer discovered (seeded, default-constructed) that never advances its
seq reaches `stale_count = 3` on its third scan — the scan where the stale
count first reaches the threshold — already dead and with
`reclaim_eligible = true`, not the claimed `false` (no one-scan grace: a
fresh peer is born dead and reclaim-eligible).  Second: a live
`node_state = "stopped"` peer whose stale count reaches the threshold is
marked dead, not kept alive as claimed. -/
theorem detectStaleness_claim_fails_concretely :
    ((detectStalenessStep 3 (detectStalenessStep 3 (detectStalenessStep 3
        (discoverPeer 5 "active")))).staleCount = 3 ∧
      (detectStalenessStep 3 (detectStalenessStep 3 (detectStalenessStep 3
        (discoverPeer 5 "active")))).isDead = true ∧
      (detectStalenessStep 3 (detectStalenessStep 3 (detectStalenessStep 3
        (discoverPeer 5 "active")))).reclaimEligible = true) ∧
    ((detectStalenessStep 3 ⟨9, "stopped", false, 2, 9, true⟩).isDead = true ∧
      (detectStalenessStep 3 ⟨9, "stopped", false, 2, 9, true⟩).reclaimEligible = false) := by
  decide

/-- C6 amended: per `detectStaleness` scan step (threshold ≥ 1): an unchanged
seq increments `stale_count` and a changed seq resets it and clears `dead`;
`last_seen_seq` is updated to the observed seq; a freshly discovered peer is
seeded with `last_seen_seq = seq` and starts dead and reclaim-eligible (it
must advance its seq to count as alive); the one-scan grace
(`reclaim_eligible = false` when the threshold is reached) applies only to a
peer that was alive before the scan, while a peer already dead at the
threshold becomes reclaim-eligible; and a stopped peer that ends the scan
alive ends it reclaim-eligible, though staleness still applies to it. -/
theorem detectStaleness_step_behaviour (thr : Nat) (info : PeerInfo)
    (hthr : 1 ≤ thr) :
    (info.seq = info.lastSeenSeq →
      (detectStalenessStep thr info).staleCount = info.staleCount + 1) ∧
    (info.seq ≠ info.lastSeenSeq →
      (detectStalenessStep thr info).staleCount = 0 ∧
      (detectStalenessStep thr info).isDead = false) ∧
    (detectStalenessStep thr info).lastSeenSeq = info.seq ∧
    (∀ (hbSeq : Nat) (st : String),
      (discoverPeer hbSeq st).lastSeenSeq = hbSeq ∧
      (discoverPeer hbSeq st).isDead = true ∧
      (discoverPeer hbSeq st).reclaimEligible = true) ∧
    (info.isDead = false → info.seq = info.lastSeenSeq →
      info.staleCount + 1 ≥ thr →
      (detectStalenessStep thr info).isDead = true ∧
      (detectStalenessStep thr info).reclaimEligible = false) ∧
    (info.isDead = true → info.seq = info.lastSeenSeq →
      info.staleCount + 1 ≥ thr →
      (detectStalenessStep thr info).reclaimEligible = true) ∧
    (info.node_state = "stopped" → (detectStalenessStep thr info).isDead = false →
      (detectStalenessStep thr info).reclaimEligible = true) := by
  refine ⟨?_, ?_, ?_, ?_, ?_, ?_, ?_⟩
  · intro h
    simp only [detectStalenessStep, if_pos h]
    split_ifs <;> rfl
  · intro h
    simp only [detectStalenessStep, if_neg h]
    split_ifs <;> simp_all <;> omega
  · simp only [detectStalenessStep]
    split_ifs <;> simp_all
  · intro hbSeq st
    exact ⟨rfl, rfl, rfl⟩
  · intro halive hseq hcount
    simp only [detectStalenessStep, if_pos hseq]
    split_ifs <;> simp_all
  · intro hdead hseq hcount
    simp only [detectStalenessStep, if_pos hseq]
    split_ifs <;> simp_all
  · intro hstop halive
    simp only [detectStalenessStep] at halive ⊢
    split_ifs at halive ⊢ <;> simp_all <;> omega

/-- Witness for `detectStaleness_step_behaviour` at threshold 3 on a live
peer whose seq advanced. -/
theorem detectStaleness_step_behaviour_witness :
    (1 ≤ 3) ∧
    ((⟨6, "active", false, 1, 5, false⟩ : PeerInfo).seq ≠
        (⟨6, "active", false, 1, 5, false⟩ : PeerInfo).lastSeenSeq →
      (detectStalenessStep 3 ⟨6, "active", false, 1, 5, false⟩).staleCount = 0 ∧
      (detectStalenessStep 3 ⟨6, "active", false, 1, 5, false⟩).isDead = false) := by
  exact ⟨by decide,
    (detectStaleness_step_behaviour 3 ⟨6, "active", false, 1, 5, false⟩ (by decide)).2.1⟩

-- ── C5: inbox poll outcomes ─────────────────────────────────────────────────

/-- C5 counterexample: a file whose bytes fail to parse as JSON
(`safeReadJson` returns empty) is neither moved to `processed/` nor deleted —
it stays in the inbox and the same bytes are retried on every poll,
contradicting both the processed-xor-deleted claim and the claim that failed
parses are quarantined. -/
theorem pollInbox_unparseable_file_stays :
    pollFileFate ⟨"1700000000000.a.json", .badJson, true, true⟩ = .inbox ∧
    (FileFate.inbox ≠ .processed ∧ FileFate.inbox ≠ .deleted) ∧
    pollFileActions ⟨"1700000000000.a.json", .badJson, true, true⟩ = [] := by
  decide

/-- C5 amended: only files whose JSON loads leave the inbox: a successfully
extracted file is renamed to `processed/`, or deleted when the rename fails
(and stays only if both rename and remove fail); a file whose field
extraction throws is renamed to `processed/` (no deletion fallback); a file
whose JSON fails to load stays in the inbox and yields no action; and a
successfully extracted file enqueues exactly one action when its `type` is
non-empty and none otherwise. -/
theorem pollInbox_file_outcomes (f : InboxFile) :
    (∀ a, f.content = .goodFields a → f.renameOk = true →
      pollFileFate f = .processed) ∧
    (∀ a, f.content = .goodFields a → f.renameOk = false → f.removeOk = true →
      pollFileFate f = .deleted) ∧
    (f.content = .badFields → f.renameOk = true → pollFileFate f = .processed) ∧
    (f.content = .badJson → pollFileFate f = .inbox ∧ pollFileActions f = []) ∧
    (∀ a, f.content = .goodFields a → a.type ≠ "" → pollFileActions f = [a]) ∧
    (∀ a, f.content = .goodFields a → a.type = "" → pollFileActions f = []) := by
  obtain ⟨name, content, renameOk, removeOk⟩ := f
  refine ⟨?_, ?_, ?_, ?_, ?_, ?_⟩ <;>
    first
      | (intro a hc hr
         subst hc
         subst hr
         simp [pollFileFate, pollFileActions])
      | (intro a hc hr hrem
         subst hc
         subst hr
         subst hrem
         simp [pollFileFate, pollFileActions])
      | (intro hc
         subst hc
         simp [pollFileFate, pollFileActions])
      | (intro hc hr
         subst hc
         subst hr
         simp [pollFileFate, pollFileActions])
      | (intro a hc hty
         subst hc
         simp [pollFileFate, pollFileActions, hty])

/-- Witness for `pollInbox_file_outcomes`: a well-formed `stop_all` command
file whose rename succeeds is processed. -/
theorem pollInbox_file_outcomes_witness :
    (⟨"1.a.json", .goodFields ⟨"stop_all", "", "user_request", 0, 0, "a"⟩,
        true, true⟩ : InboxFile).content =
      .goodFields ⟨"stop_all", "", "user_request", 0, 0, "a"⟩ ∧
    pollFileFate ⟨"1.a.json", .goodFields ⟨"stop_all", "", "user_request", 0, 0, "a"⟩,
        true, true⟩ = .processed := by
  refine ⟨rfl, ?_⟩
  exact (pollInbox_file_outcomes _).1 _ rfl rfl

-- ── C10: zero frame range omitted on the wire ───────────────────────────────

/-- C10: `sendCommand` with `frame_start = frame_end = 0` omits the frame
keys from the written JSON; the receiving `pollInbox` fills missing frame
keys with `0`, so any command without frame keys parses to the frame range
`(0, 0)` — a command about the range `(0, 0)` is indistinguishable on the
wire from one with no frame range; commands with any non-zero endpoint carry
the keys verbatim. -/
theorem sendCommand_zero_frames_indistinguishable (selfNode : String) (now : Nat)
    (target ty jobId reason : String) (fs fe : Int) :
    (sendCommandFile selfNode now target ty jobId reason 0 0).frames = none ∧
    (parseCommandAction (sendCommandFile selfNode now target ty jobId reason 0 0)).frameStart = 0 ∧
    (parseCommandAction (sendCommandFile selfNode now target ty jobId reason 0 0)).frameEnd = 0 ∧
    (∀ c : CommandFile, c.frames = none →
      (parseCommandAction c).frameStart = 0 ∧ (parseCommandAction c).frameEnd = 0) ∧
    (fs ≠ 0 ∨ fe ≠ 0 →
      (sendCommandFile selfNode now target ty jobId reason fs fe).frames = some (fs, fe) ∧
      (parseCommandAction (sendCommandFile selfNode now target ty jobId reason fs fe)).frameStart = fs ∧
      (parseCommandAction (sendCommandFile selfNode now target ty jobId reason fs fe)).frameEnd = fe) := by
  refine ⟨by simp [sendCommandFile], by simp [sendCommandFile, parseCommandAction],
    by simp [sendCommandFile, parseCommandAction], ?_, ?_⟩
  · intro c hc
    simp [parseCommandAction, hc]
  · intro h
    simp [sendCommandFile, parseCommandAction, h]

/-- Witness for `sendCommand_zero_frames_indistinguishable`: an
`assign_chunk` for frames `(1, 3)` keeps its range on the wire. -/
theorem sendCommand_zero_frames_indistinguishable_witness :
    ((1 : Int) ≠ 0 ∨ (3 : Int) ≠ 0) ∧
    (sendCommandFile "a" 5 "b" "assign_chunk" "j" "coordinator_dispatch" 1 3).frames =
      some (1, 3) := by
  refine ⟨Or.inl (by decide), ?_⟩
  exact ((sendCommand_zero_frames_indistinguishable "a" 5 "b" "assign_chunk" "j"
    "coordinator_dispatch" 1 3).2.2.2.2 (Or.inl (by decide))).1

-- ── Dispatch model: association-list lemmas ─────────────────────────────────

theorem lookup_updateTable (tables : List (String × List DispatchChunk))
    (jobId j : String) (f : List DispatchChunk → List DispatchChunk) :
    List.lookup j (updateTable tables jobId f) =
      if j = jobId then (List.lookup j tables).map f else List.lookup j tables := by
  induction tables with
  | nil => simp [updateTable]
  | cons p rest ih =>
    obtain ⟨k, cs⟩ := p
    rw [updateTable]
    by_cases hk : k = jobId
    · subst hk
      by_cases hj : j = k
      · subst hj
        simp [List.lookup]
      · simp [List.lookup, beq_false_of_ne hj, if_neg hj]
    · by_cases hj : j = k
      · subst hj
        rw [if_neg hk, if_neg hk]
        simp [List.lookup]
      · rw [if_neg hk]
        simp only [List.lookup, beq_false_of_ne hj]
        exact ih

theorem lookup_append_left (l1 l2 : List (String × List DispatchChunk))
    (j : String) (h : (List.lookup j l1).isSome) :
    List.lookup j (l1 ++ l2) = List.lookup j l1 := by
  induction l1 with
  | nil => simp [List.lookup] at h
  | cons p rest ih =>
    obtain ⟨k, cs⟩ := p
    by_cases hj : j = k
    · subst hj
      simp [List.lookup]
    · simp only [List.cons_append, List.lookup, beq_false_of_ne hj] at h ⊢
      exact ih h

theorem lookup_eraseAssignment (as : List (String × Assignment)) (node j : String) :
    List.lookup j (eraseAssignment as node) =
      if j = node then none else List.lookup j as := by
  induction as with
  | nil => simp [eraseAssignment, List.lookup]
  | cons p rest ih =>
    obtain ⟨k, a⟩ := p
    rw [eraseAssignment, List.filter]
    by_cases hk : k = node
    · subst hk
      simp only [bne_self_eq_false]
      rw [show List.filter (fun p => p.1 != k) rest = eraseAssignment rest k from rfl, ih]
      by_cases hj : j = k
      · subst hj
        simp
      · simp [List.lookup, beq_false_of_ne hj, if_neg hj]
    · have : ((k, a).1 != node) = true := by
        simp [bne_iff_ne]
        exact hk
      rw [this]
      by_cases hj : j = k
      · subst hj
        rw [if_neg hk]
        simp [List.lookup]
      · simp only [List.lookup, beq_false_of_ne hj]
        rw [show List.filter (fun p => p.1 != node) rest = eraseAssignment rest node from rfl, ih]

theorem updateFirstChunkWhere_get? (pred : DispatchChunk → Bool)
    (upd : DispatchChunk → DispatchChunk) (cs : List DispatchChunk) (i : Nat) :
    (updateFirstChunkWhere pred upd cs).get? i = cs.get? i ∨
    ∃ c, cs.get? i = some c ∧ pred c = true ∧
      (updateFirstChunkWhere pred upd cs).get? i = some (upd c) := by
  induction cs generalizing i with
  | nil => left; simp [updateFirstChunkWhere]
  | cons c rest ih =>
    rw [updateFirstChunkWhere]
    by_cases hp : pred c
    · rw [if_pos hp]
      cases i with
      | zero => right; exact ⟨c, rfl, hp, rfl⟩
      | succ n => left; simp
    · rw [if_neg hp]
      cases i with
      | zero => left; rfl
      | succ n => simpa using ih n

theorem updateFirstChunkWhere_get?_first (pred : DispatchChunk → Bool)
    (upd : DispatchChunk → DispatchChunk) (cs : List DispatchChunk) (i : Nat)
    (c : DispatchChunk) (hi : cs.get? i = some c) (hp : pred c = true)
    (hfirst : ∀ k, k < i → ∀ d, cs.get? k = some d → pred d = false) :
    (updateFirstChunkWhere pred upd cs).get? i = some (upd c) := by
  induction cs generalizing i with
  | nil => simp at hi
  | cons c0 rest ih =>
    cases i with
    | zero =>
      simp only [List.get?_cons_zero, Option.some.injEq] at hi
      subst hi
      rw [updateFirstChunkWhere, if_pos hp]
      rfl
    | succ n =>
      have h0 : pred c0 = false := hfirst 0 (Nat.succ_pos n) c0 rfl
      rw [updateFirstChunkWhere, if_neg (by simp [h0])]
      simp only [List.get?_cons_succ] at hi ⊢
      exact ih n hi (fun k hk d hd => hfirst (k + 1) (by omega) d hd)

/-- After a table step of the shape `updateTable j0 (updateFirstChunkWhere
pred upd)`, the chunk at any fixed position is unchanged, or it satisfied
the predicate and was rewritten by `upd` (and then the job matched). -/
theorem chunkAt_after_updateFirstWhere (tables : List (String × List DispatchChunk))
    (j0 : String) (pred : DispatchChunk → Bool) (upd : DispatchChunk → DispatchChunk)
    (jobId : String) (i : Nat) (c c' : DispatchChunk)
    (h : (List.lookup jobId tables).bind (fun cs => cs.get? i) = some c)
    (h' : (List.lookup jobId (updateTable tables j0 (updateFirstChunkWhere pred upd))).bind
      (fun cs => cs.get? i) = some c') :
    c' = c ∨ (jobId = j0 ∧ pred c = true ∧ c' = upd c) := by
  rw [lookup_updateTable] at h'
  by_cases hj : jobId = j0
  · rw [if_pos hj] at h'
    cases hlk : List.lookup jobId tables with
    | none => rw [hlk] at h; simp at h
    | some cs =>
      rw [hlk] at h h'
      simp only [Option.map_some', Option.some_bind] at h h'
      rcases updateFirstChunkWhere_get? pred upd cs i with heq | ⟨d, hd, hpd, hres⟩
      · left
        rw [heq, h] at h'
        exact (Option.some.inj h').symm
      · right
        rw [hd] at h
        obtain rfl : d = c := Option.some.inj h
        rw [hres] at h'
        exact ⟨hj, hpd, (Option.some.inj h').symm⟩
  · rw [if_neg hj] at h'
    left
    rw [h] at h'
    exact (Option.some.inj h').symm

/-- The transition-discipline conjunction holds trivially for an untouched
chunk. -/
theorem chunk_discipline_refl (op : DispatchOp) (jobId : String) (c : DispatchChunk) :
    c.retry_count ≤ c.retry_count ∧
    (c.state = "completed" → c.state ≠ "completed" → opTouchesChunk op jobId c) ∧
    (c.state = "failed" → c.state = "pending" → opRevivesFailed op jobId c) := by
  refine ⟨le_refl _, fun h1 h2 => absurd h1 h2, fun h1 h2 => ?_⟩
  rw [h1] at h2
  exact absurd h2 (by decide)

-- ── C3: chunk state transition discipline ───────────────────────────────────

/-- C3 counterexample.  First conjunct pair: a `completed` chunk hit by a
late `chunk_failed` worker report matching its frame range is demoted to
`pending` — `processWorkerReports` matches chunks by range alone, with no
state guard, so `completed` is not absorbing.  Second pair: a `failed` chunk
hit by an abandoned local completion returns to `pending` without any manual
`retry_failed_chunk`. -/
theorem completed_chunk_demoted_by_late_report :
    (chunkAt ⟨[("j", [⟨1, 1, "completed", "", 0, 5, 0⟩])], []⟩ "j" 0 =
      some ⟨1, 1, "completed", "", 0, 5, 0⟩ ∧
     chunkAt (dispatchStep "self" ⟨[("j", [⟨1, 1, "completed", "", 0, 5, 0⟩])], []⟩
        (.workerReport "w" "chunk_failed" "j" 1 1 3 9)) "j" 0 =
      some ⟨1, 1, "pending", "", 0, 5, 1⟩) ∧
    (chunkAt ⟨[("j", [⟨1, 1, "failed", "", 0, 0, 3⟩])], []⟩ "j" 0 =
      some ⟨1, 1, "failed", "", 0, 0, 3⟩ ∧
     chunkAt (dispatchStep "self" ⟨[("j", [⟨1, 1, "failed", "", 0, 0, 3⟩])], []⟩
        (.localCompletion "j" ⟨1, 1⟩ "abandoned" 3 9)) "j" 0 =
      some ⟨1, 1, "pending", "", 0, 0, 3⟩) := by
  decide

/-- C3 amended: across every dispatch-manager operation, a chunk's
`retry_count` never decreases; a `completed` chunk changes state only under
a worker report or local completion matching its frame range (the report
handlers match by range alone, with no state guard); and a `failed` chunk
re-enters `pending` only through the manual retry, an abandoned local
completion matching its range, or an under-`max_retries` failure matching
its range — the latter impossible while the job's `max_retries` is constant,
since a chunk is marked `failed` only once `retry_count ≥ max_retries` and
`retry_count` never decreases. -/
theorem dispatch_chunk_transition_discipline (selfNode : String)
    (s : DispatchState) (op : DispatchOp) (jobId : String) (i : Nat)
    (c c' : DispatchChunk)
    (h : chunkAt s jobId i = some c)
    (h' : chunkAt (dispatchStep selfNode s op) jobId i = some c') :
    c.retry_count ≤ c'.retry_count ∧
    (c.state = "completed" → c'.state ≠ "completed" → opTouchesChunk op jobId c) ∧
    (c.state = "failed" → c'.state = "pending" → opRevivesFailed op jobId c) := by
  rw [chunkAt] at h h'
  have hsame : chunkAt s jobId i = some c' → c' = c := by
    intro hx
    rw [chunkAt, h] at hx
    exact (Option.some.inj hx).symm
  cases op with
  | workerReport fromNode ty jobId0 fs fe maxR now =>
    rw [dispatchStep] at h'
    cases hlk : List.lookup jobId0 s.tables with
    | none =>
      rw [hlk] at h'
      obtain rfl := hsame h'
      exact chunk_discipline_refl _ _ _
    | some cs0 =>
      rw [hlk] at h'
      simp only at h'
      rcases chunkAt_after_updateFirstWhere s.tables jobId0 _ _ jobId i c c' h h' with
        rfl | ⟨hj, hpd, hupd⟩
      · exact chunk_discipline_refl _ _ _
      · simp only [Bool.and_eq_true, beq_iff_eq] at hpd
        obtain ⟨hfs, hfe⟩ := hpd
        by_cases hty : ty = "chunk_completed"
        · rw [if_pos hty] at hupd
          subst hupd
          refine ⟨le_refl _, fun _ h2 => absurd rfl h2, fun _ h2 => ?_⟩
          exact absurd h2 (by simp [completeChunk])
        · rw [if_neg hty] at hupd
          subst hupd
          refine ⟨by simp [failChunk], fun _ _ => ⟨hj.symm, hfs.symm, hfe.symm⟩,
            fun _ h2 => ?_⟩
          simp only [failChunk] at h2
          by_cases hge : c.retry_count + 1 ≥ maxR
          · rw [if_pos hge] at h2
            exact absurd h2 (by decide)
          · exact ⟨hj.symm, hfs.symm, hfe.symm, hty, by omega⟩
  | localCompletion jobId0 ch st maxR now =>
    rw [dispatchStep] at h'
    cases hlk : List.lookup jobId0 s.tables with
    | none =>
      rw [hlk] at h'
      obtain rfl := hsame h'
      exact chunk_discipline_refl _ _ _
    | some cs0 =>
      rw [hlk] at h'
      simp only at h'
      rcases chunkAt_after_updateFirstWhere s.tables jobId0 _ _ jobId i c c' h h' with
        rfl | ⟨hj, hpd, hupd⟩
      · exact chunk_discipline_refl _ _ _
      · simp only [Bool.and_eq_true, beq_iff_eq] at hpd
        obtain ⟨hfs, hfe⟩ := hpd
        by_cases hco : st = "completed"
        · rw [if_pos hco] at hupd
          subst hupd
          refine ⟨le_refl _, fun _ h2 => absurd rfl h2, fun _ h2 => ?_⟩
          exact absurd h2 (by simp [completeChunk])
        · rw [if_neg hco] at hupd
          by_cases hfa : st = "failed"
          · rw [if_pos hfa] at hupd
            subst hupd
            refine ⟨by simp [failChunk], fun _ _ => ⟨hj.symm, hfs.symm, hfe.symm⟩,
              fun _ h2 => ?_⟩
            simp only [failChunk] at h2
            by_cases hge : c.retry_count + 1 ≥ maxR
            · rw [if_pos hge] at h2
              exact absurd h2 (by decide)
            · exact ⟨hj.symm, hfs.symm, hfe.symm, hco, fun _ => by omega⟩
          · rw [if_neg hfa] at hupd
            subst hupd
            refine ⟨by simp [abandonChunk], fun _ _ => ⟨hj.symm, hfs.symm, hfe.symm⟩,
              fun _ _ => ⟨hj.symm, hfs.symm, hfe.symm, hco, fun hf => absurd hf hfa⟩⟩
  | reclaimAssignment node maxR now =>
    rw [dispatchStep] at h'
    by_cases hself : node = selfNode
    · rw [if_pos hself] at h'
      obtain rfl := hsame h'
      exact chunk_discipline_refl _ _ _
    · rw [if_neg hself] at h'
      cases hlk : List.lookup node s.assignments with
      | none =>
        rw [hlk] at h'
        obtain rfl := hsame h'
        exact chunk_discipline_refl _ _ _
      | some a =>
        rw [hlk] at h'
        simp only at h'
        rcases chunkAt_after_updateFirstWhere s.tables a.jobId _ _ jobId i c c' h h' with
          rfl | ⟨hj, hpd, hupd⟩
        · exact chunk_discipline_refl _ _ _
        · simp only [Bool.and_eq_true, beq_iff_eq] at hpd
          obtain ⟨⟨_, _⟩, hassigned⟩ := hpd
          subst hupd
          refine ⟨by simp [failChunk], fun h1 _ => ?_, fun h1 _ => ?_⟩
          · rw [h1] at hassigned
            exact absurd hassigned (by decide)
          · rw [h1] at hassigned
            exact absurd hassigned (by decide)
  | pauseOrCancelJob jobId0 =>
    rw [dispatchStep] at h'
    simp only at h'
    rw [lookup_updateTable] at h'
    by_cases hj : jobId = jobId0
    · rw [if_pos hj] at h'
      cases hlk : List.lookup jobId s.tables with
      | none => rw [hlk] at h; simp at h
      | some cs =>
        rw [hlk] at h h'
        simp only [Option.map_some', Option.some_bind, List.get?_map] at h h'
        rw [h] at h'
        simp only [Option.map_some', Option.some.injEq] at h'
        subst h'
        by_cases hassigned : c.state = "assigned"
        · rw [if_pos hassigned]
          refine ⟨by simp [abandonChunk], fun h1 _ => ?_, fun h1 _ => ?_⟩
          · rw [h1] at hassigned
            exact absurd hassigned (by decide)
          · rw [h1] at hassigned
            exact absurd hassigned (by decide)
        · rw [if_neg hassigned]
          exact chunk_discipline_refl _ _ _
    · rw [if_neg hj] at h'
      obtain rfl := hsame (by rw [chunkAt]; exact h')
      exact chunk_discipline_refl _ _ _
  | activateJob jobId0 chunks =>
    rw [dispatchStep] at h'
    cases hlk : List.lookup jobId0 s.tables with
    | some cs0 =>
      rw [hlk] at h'
      obtain rfl := hsame h'
      exact chunk_discipline_refl _ _ _
    | none =>
      rw [hlk] at h'
      simp only at h'
      rw [lookup_append_left _ _ jobId (by
        cases hx : List.lookup jobId s.tables with
        | none => rw [hx] at h; simp at h
        | some _ => simp)] at h'
      obtain rfl := hsame (by rw [chunkAt]; exact h')
      exact chunk_discipline_refl _ _ _
  | retryFailed jobId0 fs fe =>
    rw [dispatchStep] at h'
    simp only at h'
    rcases chunkAt_after_updateFirstWhere s.tables jobId0 _ _ jobId i c c' h h' with
      rfl | ⟨hj, hpd, hupd⟩
    · exact chunk_discipline_refl _ _ _
    · simp only [Bool.and_eq_true, beq_iff_eq] at hpd
      obtain ⟨⟨hfs, hfe⟩, hfail⟩ := hpd
      subst hupd
      refine ⟨by simp [abandonChunk], fun h1 _ => ?_, fun _ _ => ?_⟩
      · rw [h1] at hfail
        exact absurd hfail (by decide)
      · exact ⟨hj.symm, hfs.symm, hfe.symm⟩
  | manualReassign jobId0 fs fe =>
    rw [dispatchStep] at h'
    cases hlk : List.lookup jobId0 s.tables with
    | none =>
      rw [hlk] at h'
      obtain rfl := hsame h'
      exact chunk_discipline_refl _ _ _
    | some cs0 =>
      rw [hlk] at h'
      simp only at h'
      cases hfind : cs0.find? (fun c => c.frame_start == fs && c.frame_end == fe &&
          c.state == "assigned") with
      | none =>
        rw [hfind] at h'
        obtain rfl := hsame h'
        exact chunk_discipline_refl _ _ _
      | some cfound =>
        rw [hfind] at h'
        simp only at h'
        rcases chunkAt_after_updateFirstWhere s.tables jobId0 _ _ jobId i c c' h h' with
          rfl | ⟨hj, hpd, hupd⟩
        · exact chunk_discipline_refl _ _ _
        · simp only [Bool.and_eq_true, beq_iff_eq] at hpd
          obtain ⟨⟨_, _⟩, hassigned⟩ := hpd
          subst hupd
          refine ⟨by simp [abandonChunk], fun h1 _ => ?_, fun h1 _ => ?_⟩
          · rw [h1] at hassigned
            exact absurd hassigned (by decide)
          · rw [h1] at hassigned
            exact absurd hassigned (by decide)
  | assignChunk node jobId0 now =>
    rw [dispatchStep] at h'
    cases hlk : List.lookup jobId0 s.tables with
    | none =>
      rw [hlk] at h'
      obtain rfl := hsame h'
      exact chunk_discipline_refl _ _ _
    | some cs0 =>
      rw [hlk] at h'
      simp only at h'
      cases hfind : cs0.find? (fun c => c.state == "pending") with
      | none =>
        rw [hfind] at h'
        obtain rfl := hsame h'
        exact chunk_discipline_refl _ _ _
      | some cfound =>
        rw [hfind] at h'
        simp only at h'
        rcases chunkAt_after_updateFirstWhere s.tables jobId0 _ _ jobId i c c' h h' with
          rfl | ⟨hj, hpd, hupd⟩
        · exact chunk_discipline_refl _ _ _
        · simp only [beq_iff_eq] at hpd
          subst hupd
          refine ⟨by simp, fun h1 _ => ?_, fun h1 _ => ?_⟩
          · rw [h1] at hpd
            exact absurd hpd (by decide)
          · rw [h1] at hpd
            exact absurd hpd (by decide)

/-- Witness for `dispatch_chunk_transition_discipline`: assigning the single
pending chunk of job `j` to worker `w`. -/
theorem dispatch_chunk_transition_discipline_witness :
    (freshChunk ⟨1, 2⟩).retry_count ≤
      (⟨1, 2, "assigned", "w", 7, 0, 0⟩ : DispatchChunk).retry_count ∧
    ((freshChunk ⟨1, 2⟩).state = "completed" →
      (⟨1, 2, "assigned", "w", 7, 0, 0⟩ : DispatchChunk).state ≠ "completed" →
      opTouchesChunk (.assignChunk "w" "j" 7) "j" (freshChunk ⟨1, 2⟩)) ∧
    ((freshChunk ⟨1, 2⟩).state = "failed" →
      (⟨1, 2, "assigned", "w", 7, 0, 0⟩ : DispatchChunk).state = "pending" →
      opRevivesFailed (.assignChunk "w" "j" 7) "j" (freshChunk ⟨1, 2⟩)) := by
  exact dispatch_chunk_transition_discipline "self"
    ⟨[("j", [freshChunk ⟨1, 2⟩])], []⟩ (.assignChunk "w" "j" 7) "j" 0
    (freshChunk ⟨1, 2⟩) ⟨1, 2, "assigned", "w", 7, 0, 0⟩ (by decide) (by decide)

/-- `failChunk` written with the specification's orientation of the retry
test: `pending` iff the incremented count is still below `max_retries`. -/
theorem failChunk_eq_spec (maxR : Int) (c : DispatchChunk) :
    failChunk maxR c =
      { c with retry_count := c.retry_count + 1,
               state := if c.retry_count + 1 < maxR then "pending" else "failed",
               assigned_to := "", assigned_at_ms := 0 } := by
  simp only [failChunk]
  by_cases h : c.retry_count + 1 ≥ maxR
  · rw [if_pos h, if_neg (by omega)]
  · rw [if_neg h, if_pos (by omega)]

-- ── C2: failure and abandonment processing ──────────────────────────────────

/-- C2: when a worker's `chunk_failed` report — or the equivalent local
`failed` completion — matches a dispatch-table chunk's frame range (`c` being
the first match), the chunk gets `retry_count + 1`, state `pending` when the
incremented count is below `max_retries` and `failed` otherwise, and its
`assigned_to`/`assigned_at_ms` cleared; a local `abandoned` completion puts
the chunk back to `pending` unconditionally; and in each of the three cases
the reporting node (the worker, resp. this node) afterwards holds no
in-memory assignment for that job. -/
theorem processReports_failure_transitions (selfNode fromNode jobId : String)
    (s : DispatchState) (cs : List DispatchChunk) (i : Nat) (c : DispatchChunk)
    (fs fe maxR now : Int)
    (htab : List.lookup jobId s.tables = some cs)
    (hi : cs.get? i = some c)
    (hfs : c.frame_start = fs) (hfe : c.frame_end = fe)
    (hfirst : ∀ k, k < i → ∀ d, cs.get? k = some d →
      ¬ (d.frame_start = fs ∧ d.frame_end = fe)) :
    (chunkAt (dispatchStep selfNode s
        (.workerReport fromNode "chunk_failed" jobId fs fe maxR now)) jobId i =
      some { c with retry_count := c.retry_count + 1,
                    state := if c.retry_count + 1 < maxR then "pending" else "failed",
                    assigned_to := "", assigned_at_ms := 0 }) ∧
    (∀ a, List.lookup fromNode (dispatchStep selfNode s
        (.workerReport fromNode "chunk_failed" jobId fs fe maxR now)).assignments =
          some a → a.jobId ≠ jobId) ∧
    (chunkAt (dispatchStep selfNode s
        (.localCompletion jobId ⟨fs, fe⟩ "failed" maxR now)) jobId i =
      some { c with retry_count := c.retry_count + 1,
                    state := if c.retry_count + 1 < maxR then "pending" else "failed",
                    assigned_to := "", assigned_at_ms := 0 }) ∧
    (chunkAt (dispatchStep selfNode s
        (.localCompletion jobId ⟨fs, fe⟩ "abandoned" maxR now)) jobId i =
      some { c with state := "pending", assigned_to := "", assigned_at_ms := 0 }) ∧
    (∀ a, List.lookup selfNode (dispatchStep selfNode s
        (.localCompletion jobId ⟨fs, fe⟩ "failed" maxR now)).assignments =
          some a → a.jobId ≠ jobId) ∧
    (∀ a, List.lookup selfNode (dispatchStep selfNode s
        (.localCompletion jobId ⟨fs, fe⟩ "abandoned" maxR now)).assignments =
          some a → a.jobId ≠ jobId) := by
  have hpred : (fun d : DispatchChunk => d.frame_start == fs && d.frame_end == fe) c
      = true := by
    simp [Bool.and_eq_true, beq_iff_eq, hfs, hfe]
  have hfirstB : ∀ k, k < i → ∀ d, cs.get? k = some d →
      (fun d : DispatchChunk => d.frame_start == fs && d.frame_end == fe) d = false := by
    intro k hk d hd
    rw [Bool.eq_false_iff]
    intro hpd
    simp only [Bool.and_eq_true, beq_iff_eq] at hpd
    exact hfirst k hk d hd ⟨hpd.1, hpd.2⟩
  have hassign : ∀ (node : String) (a' : Assignment),
      List.lookup node (match List.lookup node s.assignments with
        | some a => if a.jobId = jobId then eraseAssignment s.assignments node
                    else s.assignments
        | none => s.assignments) = some a' → a'.jobId ≠ jobId := by
    intro node a' ha'
    cases hla : List.lookup node s.assignments with
    | none =>
      simp only [hla] at ha'
      exact absurd ha' (by simp)
    | some a =>
      simp only [hla] at ha'
      by_cases haj : a.jobId = jobId
      · rw [if_pos haj, lookup_eraseAssignment, if_pos rfl] at ha'
        exact absurd ha' (by simp)
      · rw [if_neg haj, hla] at ha'
        obtain rfl : a = a' := Option.some.inj ha'
        exact haj
  refine ⟨?_, ?_, ?_, ?_, ?_, ?_⟩
  · rw [chunkAt, dispatchStep]
    simp only [htab]
    rw [lookup_updateTable, if_pos rfl, htab]
    simp only [Option.map_some', Option.some_bind]
    rw [updateFirstChunkWhere_get?_first _ _ cs i c hi hpred hfirstB]
    simp only [Option.some.injEq]
    rw [if_neg (by decide : ¬ ("chunk_failed" : String) = "chunk_completed")]
    exact failChunk_eq_spec maxR c
  · intro a ha
    rw [dispatchStep] at ha
    simp only [htab] at ha
    exact hassign fromNode a ha
  · rw [chunkAt, dispatchStep]
    simp only [htab]
    rw [lookup_updateTable, if_pos rfl, htab]
    simp only [Option.map_some', Option.some_bind]
    rw [updateFirstChunkWhere_get?_first _ _ cs i c hi hpred hfirstB]
    simp only [Option.some.injEq, reduceIte]
    exact failChunk_eq_spec maxR c
  · rw [chunkAt, dispatchStep]
    simp only [htab]
    rw [lookup_updateTable, if_pos rfl, htab]
    simp only [Option.map_some', Option.some_bind]
    rw [updateFirstChunkWhere_get?_first _ _ cs i c hi hpred hfirstB]
    simp only [Option.some.injEq, reduceIte]
    rfl
  · intro a ha
    rw [dispatchStep] at ha
    simp only [htab] at ha
    exact hassign selfNode a ha
  · intro a ha
    rw [dispatchStep] at ha
    simp only [htab] at ha
    exact hassign selfNode a ha

/-- Witness for `processReports_failure_transitions`: a `chunk_failed`
report from worker `w` on the single assigned chunk of job `j`. -/
theorem processReports_failure_transitions_witness :
    List.lookup "j" (⟨[("j", [⟨1, 2, "assigned", "w", 5, 0, 0⟩])],
        [("w", ⟨"j", ⟨1, 2⟩, 5⟩)]⟩ : DispatchState).tables =
      some [⟨1, 2, "assigned", "w", 5, 0, 0⟩] ∧
    (∀ a, List.lookup "w" (dispatchStep "self"
        ⟨[("j", [⟨1, 2, "assigned", "w", 5, 0, 0⟩])], [("w", ⟨"j", ⟨1, 2⟩, 5⟩)]⟩
        (.workerReport "w" "chunk_failed" "j" 1 2 3 9)).assignments = some a →
      a.jobId ≠ "j") := by
  refine ⟨by decide, ?_⟩
  exact (processReports_failure_transitions "self" "w" "j"
    ⟨[("j", [⟨1, 2, "assigned", "w", 5, 0, 0⟩])], [("w", ⟨"j", ⟨1, 2⟩, 5⟩)]⟩
    [⟨1, 2, "assigned", "w", 5, 0, 0⟩] 0 ⟨1, 2, "assigned", "w", 5, 0, 0⟩ 1 2 3 9
    (by decide) (by decide) rfl rfl
    (fun k hk d _ => absurd hk (Nat.not_lt_zero k))).2.1

-- ── JSON round-trip: digit and token lemmas ─────────────────────────────────

theorem natToChars_ne_nil (n : Nat) : natToChars n ≠ [] := by
  rw [natToChars]
  split
  · simp
  · rename_i hn
    match hm : n, hn with
    | Nat.succ m, _ =>
      rw [natCharsAux]
      simp

theorem natToChars_isDigit (n : Nat) (c : Char) (hc : c ∈ natToChars n) :
    c.isDigit = true := by
  have := natToChars_mem n c hc
  fin_cases this <;> decide

theorem intChars_ne_nil (n : Int) : intChars n ≠ [] := by
  rw [intChars]
  split
  · simp
  · exact natToChars_ne_nil _

theorem takeWhile_append_all (p : Char → Bool) (l rest : List Char)
    (hl : ∀ c ∈ l, p c = true)
    (hrest : ∀ c, rest.head? = some c → p c = false) :
    (l ++ rest).takeWhile p = l ∧ (l ++ rest).dropWhile p = rest := by
  induction l with
  | nil =>
    simp only [List.nil_append]
    cases rest with
    | nil => simp
    | cons c t =>
      have := hrest c rfl
      simp [List.takeWhile, List.dropWhile, this]
  | cons c l ih =>
    have hc := hl c (List.mem_cons_self _ _)
    have ⟨ih1, ih2⟩ := ih fun d hd => hl d (List.mem_cons_of_mem _ hd)
    simp [List.takeWhile, List.dropWhile, hc, ih1, ih2]

theorem parseDigits_natToChars (n : Nat) (rest : List Char)
    (hrest : sepAfterOk rest) :
    parseDigits (natToChars n ++ rest) = some (n, rest) := by
  obtain ⟨h1, h2⟩ := takeWhile_append_all Char.isDigit (natToChars n) rest
    (natToChars_isDigit n) hrest
  rw [parseDigits]
  simp only [h1, h2]
  rw [if_neg (natToChars_ne_nil n), charsToNat_natToChars]

theorem parseNumber_intChars (n : Int) (rest : List Char)
    (hrest : sepAfterOk rest) :
    parseNumber (intChars n ++ rest) = some (.jnum n, rest) := by
  rw [intChars]
  by_cases hneg : n < 0
  · rw [if_pos hneg]
    rw [List.cons_append, parseNumber, if_pos rfl,
      parseDigits_natToChars n.natAbs rest hrest]
    simp only [Option.some.injEq, Prod.mk.injEq, JVal.jnum.injEq]
    exact ⟨by omega, trivial⟩
  · rw [if_neg hneg]
    cases hnc : natToChars n.toNat with
    | nil => exact absurd hnc (natToChars_ne_nil _)
    | cons c cs =>
      have hcd : c.isDigit = true :=
        natToChars_isDigit n.toNat c (by rw [hnc]; exact List.mem_cons_self _ _)
      have hcne : c ≠ '-' := by
        intro h
        rw [h] at hcd
        exact absurd hcd (by decide)
      rw [List.cons_append, parseNumber, if_neg hcne]
      have hback : c :: (cs ++ rest) = natToChars n.toNat ++ rest := by
        rw [hnc, List.cons_append]
      rw [hback, parseDigits_natToChars n.toNat rest hrest]
      simp only [Option.some.injEq, Prod.mk.injEq, JVal.jnum.injEq]
      exact ⟨by omega, trivial⟩

theorem expectChars_append (lit rest : List Char) :
    expectChars lit (lit ++ rest) = some rest := by
  induction lit with
  | nil => rfl
  | cons c cs ih =>
    rw [List.cons_append, expectChars, if_pos rfl]
    exact ih

theorem parseStringBody_escape (fuel : Nat) (s rest : List Char)
    (hfuel : (escapeChars s).length + 1 ≤ fuel) :
    parseStringBody fuel (escapeChars s ++ '"' :: rest) = some (s, rest) := by
  induction s generalizing fuel with
  | nil =>
    obtain ⟨f, rfl⟩ : ∃ f, fuel = f + 1 := ⟨fuel - 1, by omega⟩
    rw [escapeChars, List.nil_append]
    simp [parseStringBody]
  | cons c s ih =>
    rw [escapeChars] at hfuel ⊢
    by_cases hesc : c = '"' ∨ c = '\\'
    · rw [if_pos hesc] at hfuel ⊢
      obtain ⟨f, rfl⟩ : ∃ f, fuel = f + 1 := ⟨fuel - 1, by simp at hfuel; omega⟩
      rw [List.cons_append, List.cons_append]
      simp only [parseStringBody, reduceIte]
      rw [if_pos hesc, ih f (by simp at hfuel; omega),
        if_neg (by decide : ¬ ('\\' : Char) = '"')]
    · rw [if_neg hesc] at hfuel ⊢
      obtain ⟨f, rfl⟩ : ∃ f, fuel = f + 1 := ⟨fuel - 1, by simp at hfuel; omega⟩
      push_neg at hesc
      rw [List.cons_append]
      simp only [parseStringBody]
      rw [if_neg hesc.1, if_neg hesc.2, ih f (by simp at hfuel; omega)]

theorem digitList_not_special (c : Char)
    (hc : c ∈ (['0', '1', '2', '3', '4', '5', '6', '7', '8', '9'] : List Char)) :
    c ≠ 'n' ∧ c ≠ 't' ∧ c ≠ 'f' ∧ c ≠ '"' ∧ c ≠ '[' ∧ c ≠ openBraceChar ∧
    c ≠ '-' ∧ c ≠ ']' ∧ c.isDigit = true := by
  fin_cases hc <;> decide

theorem dumpJ_cons (v : JVal) : ∃ c cs, dumpJ v = c :: cs ∧ c ≠ ']' := by
  cases v with
  | jnull => exact ⟨'n', "ull".data, by simp [dumpJ], by decide⟩
  | jbool b =>
    cases b
    · exact ⟨'f', "alse".data, by simp [dumpJ], by decide⟩
    · exact ⟨'t', "rue".data, by simp [dumpJ], by decide⟩
  | jnum n =>
    by_cases hneg : n < 0
    · exact ⟨'-', natToChars n.natAbs, by simp [dumpJ, intChars, hneg], by decide⟩
    · cases hnc : natToChars n.toNat with
      | nil => exact absurd hnc (natToChars_ne_nil _)
      | cons c cs =>
        have hsp := digitList_not_special c
          (natToChars_mem n.toNat c (by rw [hnc]; exact List.mem_cons_self _ _))
        exact ⟨c, cs, by simp [dumpJ, intChars, hneg, hnc], hsp.2.2.2.2.2.2.2.1⟩
  | jstr s => exact ⟨'"', escapeChars s ++ ['"'], by simp [dumpJ], by decide⟩
  | jarr es =>
    cases es with
    | nil => exact ⟨'[', [']'], by simp [dumpJ], by decide⟩
    | cons e es =>
      exact ⟨'[', dumpJ e ++ (dumpElems es ++ [']']), by simp [dumpJ], by decide⟩
  | jobj fs =>
    cases fs with
    | nil => exact ⟨openBraceChar, [closeBraceChar], by simp [dumpJ], by decide⟩
    | cons f fs =>
      exact ⟨openBraceChar, dumpField f ++ (dumpFields fs ++ [closeBraceChar]),
        by simp [dumpJ], by decide⟩

theorem dumpJ_length_pos (v : JVal) : 1 ≤ (dumpJ v).length := by
  obtain ⟨c, cs, h, _⟩ := dumpJ_cons v
  simp [h]

theorem sepAfterOk_cons (c : Char) (hc : c.isDigit = false) (rest : List Char) :
    sepAfterOk (c :: rest) := by
  intro d hd
  simp only [List.head?_cons, Option.some.injEq] at hd
  rw [← hd]
  exact hc

theorem sepAfterOk_elems (es : List JVal) (rest : List Char) :
    sepAfterOk (dumpElems es ++ (']' :: rest)) := by
  cases es with
  | nil =>
    rw [show dumpElems [] = [] from by simp [dumpElems], List.nil_append]
    exact sepAfterOk_cons ']' (by decide) rest
  | cons e es =>
    rw [show dumpElems (e :: es) = ',' :: (dumpJ e ++ dumpElems es) from by
      simp [dumpElems], List.cons_append]
    exact sepAfterOk_cons ',' (by decide) _

theorem sepAfterOk_fields (fs : List (List Char × JVal)) (rest : List Char) :
    sepAfterOk (dumpFields fs ++ (closeBraceChar :: rest)) := by
  cases fs with
  | nil =>
    rw [show dumpFields [] = [] from by simp [dumpFields], List.nil_append]
    exact sepAfterOk_cons closeBraceChar (by decide) rest
  | cons f fs =>
    rw [show dumpFields (f :: fs) = ',' :: (dumpField f ++ dumpFields fs) from by
      simp [dumpFields], List.cons_append]
    exact sepAfterOk_cons ',' (by decide) _

mutual

/-- Parsing inverts serialization: `parseJ` consumes exactly `dumpJ v` and
returns `v`, for any fuel at least the serialized length and any
non-digit-led remainder. -/
theorem parseJ_dumpJ (fuel : Nat) (v : JVal) (rest : List Char)
    (hfuel : (dumpJ v).length ≤ fuel) (hrest : sepAfterOk rest) :
    parseJ fuel (dumpJ v ++ rest) = some (v, rest) := by
  obtain ⟨f, rfl⟩ : ∃ f, fuel = f + 1 :=
    ⟨fuel - 1, by have := dumpJ_length_pos v; omega⟩
  cases v with
  | jnull =>
    rw [show dumpJ .jnull = 'n' :: "ull".data from by simp [dumpJ], List.cons_append]
    simp only [parseJ, reduceIte]
    rw [expectChars_append]
  | jbool b =>
    cases b
    · rw [show dumpJ (.jbool false) = 'f' :: "alse".data from by simp [dumpJ],
        List.cons_append]
      simp only [parseJ, reduceIte]
      rw [expectChars_append]
      simp
    · rw [show dumpJ (.jbool true) = 't' :: "rue".data from by simp [dumpJ],
        List.cons_append]
      simp only [parseJ, reduceIte]
      rw [expectChars_append]
      simp
  | jnum n =>
    have hp := parseNumber_intChars n rest hrest
    rw [show dumpJ (.jnum n) = intChars n from by simp [dumpJ]]
    by_cases hneg : n < 0
    · rw [intChars, if_pos hneg, List.cons_append] at hp ⊢
      simp only [parseJ, reduceIte]
      exact hp
    · cases hnc : natToChars n.toNat with
      | nil => exact absurd hnc (natToChars_ne_nil _)
      | cons c cs =>
        have hsp := digitList_not_special c
          (natToChars_mem n.toNat c (by rw [hnc]; exact List.mem_cons_self _ _))
        rw [intChars, if_neg hneg, hnc, List.cons_append] at hp ⊢
        simp only [parseJ]
        rw [if_neg hsp.1, if_neg hsp.2.1, if_neg hsp.2.2.1, if_neg hsp.2.2.2.1,
          if_neg hsp.2.2.2.2.1, if_neg hsp.2.2.2.2.2.1,
          if_pos (Or.inr hsp.2.2.2.2.2.2.2.2)]
        exact hp
  | jstr s =>
    have hlen : (escapeChars s).length + 1 ≤ f := by
      rw [show dumpJ (.jstr s) = '"' :: (escapeChars s ++ ['"']) from by
        simp [dumpJ]] at hfuel
      simp at hfuel
      omega
    rw [show dumpJ (.jstr s) = '"' :: (escapeChars s ++ ['"']) from by simp [dumpJ],
      List.cons_append, List.append_assoc, List.singleton_append]
    simp only [parseJ, reduceIte]
    rw [parseStringBody_escape f s rest hlen]
    simp
  | jarr es =>
    cases es with
    | nil =>
      rw [show dumpJ (.jarr []) = '[' :: [']'] from by simp [dumpJ],
        List.cons_append, List.singleton_append]
      simp only [parseJ, reduceIte]
      simp
    | cons e es =>
      have hd : dumpJ (.jarr (e :: es)) =
          '[' :: (dumpJ e ++ (dumpElems es ++ [']'])) := by simp [dumpJ]
      have hlen : (dumpJ e).length ≤ f ∧ (dumpElems es).length + 1 ≤ f := by
        rw [hd] at hfuel
        simp at hfuel
        omega
      obtain ⟨c0, cs0, hde, hne⟩ := dumpJ_cons e
      rw [hd, List.cons_append, List.append_assoc, List.append_assoc,
        List.singleton_append, hde, List.cons_append]
      simp only [parseJ]
      rw [if_neg hne]
      rw [show c0 :: (cs0 ++ (dumpElems es ++ ']' :: rest)) =
            dumpJ e ++ (dumpElems es ++ ']' :: rest) from by
        rw [hde, List.cons_append]]
      rw [parseJ_dumpJ f e _ hlen.1 (sepAfterOk_elems es rest)]
      simp only []
      rw [parseElemsTail_dumpElems f es rest hlen.2]
      simp
  | jobj fs =>
    cases fs with
    | nil =>
      rw [show dumpJ (.jobj []) = openBraceChar :: [closeBraceChar] from by
        simp [dumpJ], List.cons_append, List.singleton_append]
      simp only [parseJ, reduceIte]
      rw [if_neg (by decide : ¬ openBraceChar = 'n'),
        if_neg (by decide : ¬ openBraceChar = 't'),
        if_neg (by decide : ¬ openBraceChar = 'f'),
        if_neg (by decide : ¬ openBraceChar = '"'),
        if_neg (by decide : ¬ openBraceChar = '[')]
    | cons fd fs =>
      obtain ⟨k, v⟩ := fd
      have hd : dumpJ (.jobj ((k, v) :: fs)) =
          openBraceChar :: (dumpField (k, v) ++ (dumpFields fs ++ [closeBraceChar])) := by
        simp [dumpJ]
      have hdf : dumpField (k, v) = '"' :: (escapeChars k ++ ('"' :: ':' :: dumpJ v)) := by
        simp [dumpField]
      have hlen : (dumpField (k, v)).length ≤ f ∧ (dumpFields fs).length + 1 ≤ f := by
        rw [hd] at hfuel
        simp at hfuel
        omega
      rw [hd, List.cons_append, List.append_assoc, List.append_assoc,
        List.singleton_append, hdf, List.cons_append]
      simp only [parseJ]
      rw [if_neg (by decide : ¬ ('"' : Char) = closeBraceChar)]
      rw [show '"' :: (escapeChars k ++ ('"' :: ':' :: dumpJ v) ++
            (dumpFields fs ++ closeBraceChar :: rest)) =
          dumpField (k, v) ++ (dumpFields fs ++ closeBraceChar :: rest) from by
        rw [hdf, List.cons_append, List.append_assoc]]
      rw [parseField_dumpField f k v _ hlen.1 (sepAfterOk_fields fs rest)]
      rw [if_neg (by decide : ¬ openBraceChar = 'n'),
        if_neg (by decide : ¬ openBraceChar = 't'),
        if_neg (by decide : ¬ openBraceChar = 'f'),
        if_neg (by decide : ¬ openBraceChar = '"'),
        if_neg (by decide : ¬ openBraceChar = '[')]
      simp [parseFieldsTail_dumpFields f fs rest hlen.2]
  termination_by fuel

/-- `parseElemsTail` inverts `dumpElems` followed by the closing bracket. -/
theorem parseElemsTail_dumpElems (fuel : Nat) (es : List JVal) (rest : List Char)
    (hfuel : (dumpElems es).length + 1 ≤ fuel) :
    parseElemsTail fuel (dumpElems es ++ (']' :: rest)) = some (es, rest) := by
  obtain ⟨f, rfl⟩ : ∃ f, fuel = f + 1 := ⟨fuel - 1, by omega⟩
  cases es with
  | nil =>
    rw [show dumpElems [] = [] from by simp [dumpElems], List.nil_append]
    simp only [parseElemsTail, reduceIte]
  | cons e es =>
    have hd : dumpElems (e :: es) = ',' :: (dumpJ e ++ dumpElems es) := by
      simp [dumpElems]
    have hlen : (dumpJ e).length ≤ f ∧ (dumpElems es).length + 1 ≤ f := by
      rw [hd] at hfuel
      simp at hfuel
      omega
    rw [hd, List.cons_append, List.append_assoc]
    simp only [parseElemsTail, reduceIte]
    rw [parseJ_dumpJ f e _ hlen.1 (sepAfterOk_elems es rest)]
    simp only []
    rw [parseElemsTail_dumpElems f es rest hlen.2]
    simp
  termination_by fuel

/-- `parseField` inverts `dumpField`. -/
theorem parseField_dumpField (fuel : Nat) (k : List Char) (v : JVal)
    (rest : List Char) (hfuel : (dumpField (k, v)).length ≤ fuel)
    (hrest : sepAfterOk rest) :
    parseField fuel (dumpField (k, v) ++ rest) = some ((k, v), rest) := by
  have hdf : dumpField (k, v) = '"' :: (escapeChars k ++ ('"' :: ':' :: dumpJ v)) := by
    simp [dumpField]
  obtain ⟨f, rfl⟩ : ∃ f, fuel = f + 1 :=
    ⟨fuel - 1, by rw [hdf] at hfuel; simp at hfuel; omega⟩
  have hlen : (escapeChars k).length + 1 ≤ f ∧ (dumpJ v).length ≤ f := by
    rw [hdf] at hfuel
    simp at hfuel
    omega
  rw [hdf, List.cons_append, List.append_assoc]
  simp only [parseField, reduceIte]
  rw [show ('"' :: ':' :: dumpJ v) ++ rest = '"' :: (':' :: (dumpJ v ++ rest)) from by
    simp]
  rw [parseStringBody_escape f k _ hlen.1]
  simp only [reduceIte]
  rw [parseJ_dumpJ f v rest hlen.2 hrest]
  termination_by fuel

/-- `parseFieldsTail` inverts `dumpFields` followed by the closing brace. -/
theorem parseFieldsTail_dumpFields (fuel : Nat) (fs : List (List Char × JVal))
    (rest : List Char) (hfuel : (dumpFields fs).length + 1 ≤ fuel) :
    parseFieldsTail fuel (dumpFields fs ++ (closeBraceChar :: rest)) =
      some (fs, rest) := by
  obtain ⟨f, rfl⟩ : ∃ f, fuel = f + 1 := ⟨fuel - 1, by omega⟩
  cases fs with
  | nil =>
    rw [show dumpFields [] = [] from by simp [dumpFields], List.nil_append]
    simp only [parseFieldsTail, reduceIte]
  | cons fd fs =>
    obtain ⟨k, v⟩ := fd
    have hd : dumpFields ((k, v) :: fs) = ',' :: (dumpField (k, v) ++ dumpFields fs) := by
      simp [dumpFields]
    have hlen : (dumpField (k, v)).length ≤ f ∧ (dumpFields fs).length + 1 ≤ f := by
      rw [hd] at hfuel
      simp at hfuel
      omega
    rw [hd, List.cons_append, List.append_assoc]
    simp only [parseFieldsTail, reduceIte]
    rw [if_neg (by decide : ¬ (',' : Char) = closeBraceChar)]
    rw [parseField_dumpField f k v _ hlen.1 (sepAfterOk_fields fs rest)]
    simp [parseFieldsTail_dumpFields f fs rest hlen.2]
  termination_by fuel

end

-- ── C9: write/read round-trip and safe reads ────────────────────────────────

/-- C9: a successful `write_json` followed by `safe_read_json` returns the
written value (the published canonical serialization parses back to exactly
the value written); a failed write leaves the visible filesystem unchanged;
and `safe_read_json` returns empty — rather than propagating an error — for
a missing file, for an unreadable file, and for content that fails to
parse. -/
theorem writeJson_safeReadJson_roundtrip (fs : List (String × FSFile))
    (p : String) (v : JVal) :
    safeReadJson (writeJson fs p v true) p = some v ∧
    writeJson fs p v false = fs ∧
    (List.lookup p fs = none → safeReadJson fs p = none) ∧
    (∀ f : FSFile, List.lookup p fs = some f → f.readable = false →
      safeReadJson fs p = none) ∧
    (∀ f : FSFile, List.lookup p fs = some f → parseJson f.content = none →
      safeReadJson fs p = none) := by
  refine ⟨?_, by simp [writeJson], ?_, ?_, ?_⟩
  · have h1 : parseJ ((dumpJ v).length + 1) (dumpJ v) = some (v, []) := by
      have h := parseJ_dumpJ ((dumpJ v).length + 1) v [] (by omega)
        (fun c hc => by simp at hc)
      simpa using h
    simp [safeReadJson, writeJson, setFile, List.lookup, parseJson, h1]
  · intro h
    simp [safeReadJson, h]
  · intro f hf hr
    simp [safeReadJson, hf, hr]
  · intro f hf hp
    rw [safeReadJson, hf]
    by_cases hr : f.readable
    · simp [hr, hp]
    · simp [hr]

/-- Witness for `writeJson_safeReadJson_roundtrip`: writing `null` to path
`"x"` over the empty filesystem and reading it back; reading a missing path
gives the empty optional. -/
theorem writeJson_safeReadJson_roundtrip_witness :
    safeReadJson (writeJson [] "x" .jnull true) "x" = some .jnull ∧
    (List.lookup "x" ([] : List (String × FSFile)) = none →
      safeReadJson [] "x" = none) := by
  exact ⟨(writeJson_safeReadJson_roundtrip [] "x" .jnull).1,
    (writeJson_safeReadJson_roundtrip [] "x" .jnull).2.2.1⟩

end SR
